import Mathlib

/-!
# Verification of `fdmerge.py` (dedup-and-merge engine)

This file is a shallow embedding of the core of `src/fdmerge.py` (version
0.4.0): the per-folder hashing/dedup loops of `merge_sources`, the global
digest index `d`, the collision dictionary `collisions`, and the copy phase
with its filename-collision ("rename") resolution loop, post-copy integrity
check, dry-run short-circuit, and exit codes.

Modelling conventions:

* Python `dict`s are insertion-ordered association lists.  `d[k] = v`
  updates an existing key in place (keeping its position) and appends a
  fresh key at the end; `d.update(s)` folds that insertion over `s`.
* The filesystem is a value `Fs`: a map from path to the SHA-256 digest of
  the file's current content (we identify a file's content with its
  digest, which is all `fdmerge` ever observes about content), plus a set
  of existing directories.  `shutil.copy2 src dst` makes `dst`'s content
  digest equal to `src`'s current one.
* `os.path.realpath` on the target is modelled as the identity: the target
  argument is taken to be an already-canonical absolute path.
* Randomness (`random.choices(string.ascii_lowercase, k=4)`) is modelled
  by an oracle `choice : Nat → Fin 26` consumed four letters per draw.
* The persisted-hash-cache *write* (`pickle.dump`, writing
  `fdmerge_state.pkl` at a source-folder root) is outside the model, as
  the spec excludes the cache read/write mechanism from the core; the
  *read* is modelled by an optional, already-deserialized map carried by
  each source folder (`SourceFolder.cached`), used exactly where
  `merge_sources` loads it.
* Exceptions and `sys.exit` are an `Except Nat` with the process exit
  status: an uncaught Python exception (e.g. the `UnboundLocalError` in
  `calc_hash` on a vanished file, or an `IndexError`/`FileNotFoundError`
  in the copy phase) reaches the `except Exception` handler in `main`,
  which exits with status 1; `sys.exit(2)`/`sys.exit(3)` raise
  `SystemExit`, which that handler does not catch, giving statuses 2/3.
-/

namespace Fdmerge

/-- Content digest, rendered as hex (the output of `hexdigest()`). -/
abbrev Digest := String

/-- The value stored in the digest dictionaries: the Python list
`[file, source_folder_index, do_copy]` (`value[0]`, `value[1]`, `value[2]`).
The copy flag is `0`/`1` in Python, used only for truthiness, so a `Bool`. -/
structure FileRec where
  path : String
  folderIndex : Nat
  copyFlag : Bool
deriving Repr, DecidableEq

/-! ## Python `dict` as insertion-ordered association list -/

/-- `k in m` / `m[k]` lookup of a Python dict (keys are unique in an actual
dict, so first-match lookup is faithful). -/
def dictFind {α : Type} (m : List (String × α)) (k : String) : Option α :=
  match m with
  | [] => none
  | (k', v) :: rest => if k' = k then some v else dictFind rest k

/-- `m[k] = v` of a Python dict: update an existing key in place, append a
fresh key at the end (Python dicts preserve insertion order). -/
def dictInsert {α : Type} (m : List (String × α)) (k : String) (v : α) :
    List (String × α) :=
  match m with
  | [] => [(k, v)]
  | (k', v') :: rest =>
    if k' = k then (k', v) :: rest else (k', v') :: dictInsert rest k v

/-- `d.update(s)`: key-wise insertion of every entry of `s` into `d`. -/
def dictUpdate {α : Type} (d s : List (String × α)) : List (String × α) :=
  s.foldl (fun acc kv => dictInsert acc kv.1 kv.2) d

/-! ## Filesystem model -/

/-- Filesystem state: file path ↦ digest of current content, plus existing
directories. -/
structure Fs where
  files : List (String × Digest)
  dirs : List String
deriving Repr, DecidableEq

/-- `os.path.isfile` (for regular files, which is all the model contains). -/
def Fs.isfile (fs : Fs) (p : String) : Bool :=
  (dictFind fs.files p).isSome

/-- `os.path.isdir`. -/
def Fs.isdir (fs : Fs) (p : String) : Bool :=
  fs.dirs.contains p

/-- Effect of `shutil.copy2(src, dst)` on the destination entry (the model
identifies content with its digest). -/
def Fs.addFile (fs : Fs) (p : String) (h : Digest) : Fs :=
  { fs with files := dictInsert fs.files p h }

/-- Effect of `os.makedirs(target_directory)` on the model (intermediate
directories are irrelevant to every lookup the program performs). -/
def Fs.addDir (fs : Fs) (p : String) : Fs :=
  { fs with dirs := p :: fs.dirs }

/-- `calc_hash` (fdmerge.py lines 97–109): if the file exists its streamed
SHA-256 hex digest is returned; if not, the `if os.path.exists` guard skips
the assignment of `accumulator`, and `accumulator.hexdigest()` raises
`UnboundLocalError`, which propagates to `main`'s `except Exception`
handler and terminates the run with exit status 1.  (The returned CPU time
is diagnostic only and never used in a decision, so it is not modelled.) -/
def calc_hash (fs : Fs) (file : String) : Except Nat Digest :=
  match dictFind fs.files file with
  | some h => Except.ok h
  | none => Except.error 1

/-! ## POSIX path functions used by the copy phase -/

/-- `p.startswith('/')` for the path functions below. -/
def isAbs (p : String) : Bool :=
  p.data.head? = some '/'

/-- `posixpath.join` for two components (the only arity used):
if `b` is absolute it replaces the path; otherwise a `/` separator is
inserted unless `a` is empty or already ends in `/`. -/
def pyJoin (a b : String) : String :=
  if isAbs b then b
  else if a = "" ∨ a.data.getLast? = some '/' then a ++ b
  else a ++ "/" ++ b

/-- Index of the last occurrence of `c` in `cs` (Python `str.rfind`,
with `none` for `-1`). -/
def lastIdx (cs : List Char) (c : Char) : Option Nat :=
  match cs with
  | [] => none
  | x :: rest =>
    match lastIdx rest c with
    | some i => some (i + 1)
    | none => if x = c then some 0 else none

/-- `os.path.splitext`: split off the extension at the last dot, provided
that dot lies after the last path separator and the basename has at least
one non-dot character before it (so `.bashrc` has no extension). -/
def splitext (p : String) : String × String :=
  let cs := p.data
  let sepIndex : Int := match lastIdx cs '/' with | some i => (i : Int) | none => -1
  let dotIndex : Int := match lastIdx cs '.' with | some i => (i : Int) | none => -1
  if sepIndex < dotIndex then
    let nameStart := (sepIndex + 1).toNat
    let dotN := dotIndex.toNat
    if (List.range' nameStart (dotN - nameStart)).any
        (fun i => decide (cs.get? i ≠ some '.')) then
      (⟨cs.take dotN⟩, ⟨cs.drop dotN⟩)
    else (p, "")
  else (p, "")

/-- `os.path.split`: split at the final `/`; the head keeps no trailing
slashes unless it consists only of slashes. -/
def pySplit (p : String) : String × String :=
  let cs := p.data
  match lastIdx cs '/' with
  | none => ("", p)
  | some i =>
    let head := cs.take (i + 1)
    let tail := cs.drop (i + 1)
    if head.all (· = '/') then (⟨head⟩, ⟨tail⟩)
    else (⟨head.reverse.dropWhile (· = '/') |>.reverse⟩, ⟨tail⟩)

/-- Python `str.split(sep)` for a single separator character (e.g.
`"a//b".split('/') == ["a", "", "b"]`, `"".split('/') == [""]`). -/
def splitOnChar (sep : Char) : List Char → List (List Char)
  | [] => [[]]
  | c :: rest =>
    match splitOnChar sep rest with
    | [] => [[]]
    | grp :: rs => if c = sep then [] :: grp :: rs else (c :: grp) :: rs

/-- `p.split('/')` as strings. -/
def splitSlashes (p : String) : List String :=
  (splitOnChar '/' p.data).map (fun l => ⟨l⟩)

/-- Number of leading slashes `posixpath.normpath` preserves (two leading
slashes are kept per POSIX; one and three-or-more collapse to one). -/
def initialSlashes (cs : List Char) : Nat :=
  match cs with
  | '/' :: '/' :: '/' :: _ => 1
  | '/' :: '/' :: _ => 2
  | '/' :: _ => 1
  | _ => 0

/-- `posixpath.normpath`: collapse repeated separators and `.`, resolve
`..` textually. -/
def normpath (p : String) : String :=
  if p = "" then "."
  else
    let slashes := initialSlashes p.data
    let comps := splitSlashes p
    let newComps := comps.foldl
      (fun acc comp =>
        if comp = "" ∨ comp = "." then acc
        else if comp ≠ ".." ∨ (slashes = 0 ∧ acc = []) ∨ acc.getLast? = some ".."
        then acc ++ [comp]
        else acc.dropLast)
      []
    let path := String.mk (List.replicate slashes '/') ++ String.intercalate "/" newComps
    if path = "" then "." else path

/-- `posixpath.abspath` relative to the process working directory. -/
def abspath (cwd p : String) : String :=
  normpath (pyJoin cwd p)

/-- Length of the common prefix of two component lists
(`posixpath.commonprefix` applied to split paths). -/
def commonPrefixLen : List String → List String → Nat
  | a :: as, b :: bs => if a = b then commonPrefixLen as bs + 1 else 0
  | _, _ => 0

/-- `posixpath.relpath(path, start)`. -/
def relpath (cwd path start : String) : String :=
  let startList := (splitSlashes (abspath cwd start)).filter (· ≠ "")
  let pathList := (splitSlashes (abspath cwd path)).filter (· ≠ "")
  let i := commonPrefixLen startList pathList
  let relList := List.replicate (startList.length - i) ".." ++ pathList.drop i
  if relList = [] then "." else String.intercalate "/" relList

/-! ## Run inputs -/

/-- One declared source folder: its root path, the file enumeration that
`run_fast_scandir` produces for it, and the contents of its
`fdmerge_state.pkl` when that statefile exists (`none` when absent). -/
structure SourceFolder where
  root : String
  files : List String
  cached : Option (List (Digest × FileRec))
deriving Repr, DecidableEq

/-- The fields of `args` that `merge_sources` reads, plus the process
working directory (used by `os.path.relpath`). -/
structure Args where
  cwd : String
  target : String
  compareOnly : List SourceFolder
  folders : List SourceFolder
  loadHashes : Bool
  dryRun : Bool
deriving Repr, DecidableEq

/-! ## Merge phase: per-folder hashing and dedup (lines 126–245) -/

/-- The folder-local state of one source-folder pass: the folder-local
unique-file dict `s` and the global collision dict `collisions` (which,
unlike `s`, is never cleared between folders). -/
structure FolderLocal where
  s : List (Digest × FileRec)
  collisions : List (Digest × List FileRec)
deriving Repr, DecidableEq

/-- The body of the per-file hashing loop (lines 162–171 for compare-only
folders, lines 224–233 for copy-eligible folders; identical up to the
stored copy flag): a digest seen in neither the global dict `d` nor the
folder-local dict `s` becomes the canonical record in `s`; otherwise the
occurrence is appended to its collision list (created on first duplicate). -/
def scanStep (d : List (Digest × FileRec)) (fs : Fs) (idx : Nat) (flag : Bool)
    (st : FolderLocal) (file : String) : Except Nat FolderLocal :=
  match calc_hash fs file with
  | Except.error e => Except.error e
  | Except.ok file_hash =>
    let cvalue : FileRec := ⟨file, idx, flag⟩
    if (dictFind d file_hash).isNone && (dictFind st.s file_hash).isNone then
      Except.ok { st with s := dictInsert st.s file_hash cvalue }
    else if (dictFind st.collisions file_hash).isSome then
      Except.ok { st with collisions :=
        (dictInsert st.collisions file_hash
          (((dictFind st.collisions file_hash).getD []) ++ [cvalue])) }
    else
      Except.ok { st with collisions := st.collisions ++ [(file_hash, [cvalue])] }

/-- The per-file loop over one folder's enumeration. -/
def scanFiles (d : List (Digest × FileRec)) (fs : Fs) (idx : Nat) (flag : Bool) :
    List String → FolderLocal → Except Nat FolderLocal
  | [], st => Except.ok st
  | f :: rest, st =>
    match scanStep d fs idx flag st f with
    | Except.error e => Except.error e
    | Except.ok st' => scanFiles d fs idx flag rest st'

/-- The global merge-phase state: the global unique-file dict `d` and the
collision dict. -/
structure MergeState where
  d : List (Digest × FileRec)
  collisions : List (Digest × List FileRec)
deriving Repr, DecidableEq

/-- One source-folder pass (one iteration of the loops at lines 128–184 /
191–245).  When `--load-hashes` is given and the folder's statefile exists,
the pickled map is used verbatim as `s`, with every value's copy flag
forced (and, for compare-only folders, the folder index rewritten to the
current one); otherwise the folder is scanned and hashed.  Either way the
pass ends with `d.update(s)`. -/
def processFolder (fs : Fs) (loadHashes compareOnly : Bool)
    (st : MergeState) (idx : Nat) (folder : SourceFolder) :
    Except Nat MergeState :=
  match (if loadHashes then folder.cached else none) with
  | some cachedMap =>
    let s := if compareOnly
      then cachedMap.map (fun kv => (kv.1, { kv.2 with folderIndex := idx, copyFlag := false }))
      else cachedMap.map (fun kv => (kv.1, { kv.2 with copyFlag := true }))
    Except.ok { d := dictUpdate st.d s, collisions := st.collisions }
  | none =>
    match scanFiles st.d fs idx (!compareOnly) folder.files ⟨[], st.collisions⟩ with
    | Except.error e => Except.error e
    | Except.ok loc =>
      Except.ok { d := dictUpdate st.d loc.s, collisions := loc.collisions }

/-- The `enumerate(..., start=0)` loop over one list of source folders. -/
def processFolders (fs : Fs) (loadHashes compareOnly : Bool) :
    Nat → List SourceFolder → MergeState → Except Nat MergeState
  | _, [], st => Except.ok st
  | idx, folder :: rest, st =>
    match processFolder fs loadHashes compareOnly st idx folder with
    | Except.error e => Except.error e
    | Except.ok st' => processFolders fs loadHashes compareOnly (idx + 1) rest st'

/-- The whole merge phase: all compare-only folders (lines 126–184) in
caller order, then all copy-eligible folders (lines 188–245) in caller
order, starting from empty `d` and `collisions`. -/
def mergePhase (fs : Fs) (a : Args) : Except Nat MergeState :=
  match processFolders fs a.loadHashes true 0 a.compareOnly ⟨[], []⟩ with
  | Except.error e => Except.error e
  | Except.ok st => processFolders fs a.loadHashes false 0 a.folders st

/-! ## Copy phase (lines 247–308) -/

/-- `''.join(random.choices(string.ascii_lowercase, k=4))` at draw `t` of
the randomness oracle. -/
def mkFix (choice : Nat → Fin 26) (t : Nat) : String :=
  ⟨(List.range 4).map (fun i => Char.ofNat (97 + (choice (4 * t + i)).val))⟩

/-- The candidate filename built at line 273–275 from the current
candidate `target_file`: `os.path.join(target_directory,
''.join([x, '__COPY', fix, y]))` where `x, y = os.path.splitext(target_file)`. -/
def nextCandidate (choice : Nat → Fin 26) (dir : String) (t : Nat)
    (target_file : String) : String :=
  let fix := mkFix choice t
  let xy := splitext target_file
  pyJoin dir (xy.1 ++ "__COPY" ++ fix ++ xy.2)

/-- The filename-fix `while True` loop (lines 267–284).  Python counts
iterations upward in `j` and aborts with `sys.exit(2)` once `j >= 6` after
generating a candidate; we count the remaining permitted iterations
`k = 6 - j` downward so the recursion is structural (`k ≤ 1` after a
generation is exactly `j >= 6`; the loop is entered with `j = 0`,
i.e. `k = 6`).  Every generated candidate is appended to `renames`
(line 276) before the bound is checked. -/
def fixnameLoop (choice : Nat → Fin 26) (fs : Fs) (dir : String) :
    Nat → Nat → String → List String → Except Nat (String × List String × Nat)
  | k, t, target_file, renames =>
    if fs.isfile target_file then
      let target' := nextCandidate choice dir t target_file
      let renames' := renames ++ [target']
      match k with
      | 0 => Except.error 2
      | 1 => Except.error 2
      | k' + 2 => fixnameLoop choice fs dir (k' + 1) (t + 1) target' renames'
    else Except.ok (target_file, renames, t)

/-- The mutable state of the copy loop: the filesystem, the
successful-copy dict `copies`, the rename list, and the randomness
counter. -/
structure CopyState where
  fs : Fs
  copies : List (Digest × String)
  renames : List String
  t : Nat
deriving Repr, DecidableEq

/-- The initial resolved target path of a record (lines 257–259): the
source path relativized to its originating copy-eligible folder root and
joined onto the target root. -/
def resolvedTarget (a : Args) (folderRoot : String) (value : FileRec) : String :=
  normpath (pyJoin a.target (relpath a.cwd (normpath value.path) (normpath folderRoot)))

/-- Lines 263–264: create the target directory chain when missing. -/
def ensureDir (fs : Fs) (d : String) : Fs :=
  if fs.isdir d then fs else fs.addDir d

/-- The body of the copy loop for one copy-eligible record (lines
256–305, after the `if not value[2]: continue` guard).  Returns the new
state and a flag that is `true` exactly when the `--dry-run` `break` at
line 292 fires.  `args.folders[value[1]]` out of range is an uncaught
`IndexError` (exit 1); `shutil.copy2` from a vanished source is an
uncaught `FileNotFoundError` (exit 1); a post-copy digest mismatch is
`sys.exit(3)`. -/
def copyStep (a : Args) (choice : Nat → Fin 26) (st : CopyState)
    (source_hash : Digest) (value : FileRec) : Except Nat (CopyState × Bool) :=
  match (a.folders.map SourceFolder.root).get? value.folderIndex with
  | none => Except.error 1
  | some folderRoot =>
    let source_file := normpath value.path
    let target_file := resolvedTarget a folderRoot value
    let target_directory := (pySplit target_file).1
    let fs1 := ensureDir st.fs target_directory
    match fixnameLoop choice fs1 target_directory 6 st.t target_file st.renames with
    | Except.error e => Except.error e
    | Except.ok (target_file, renames, t) =>
      let st1 : CopyState := { st with fs := fs1, renames := renames, t := t }
      if a.dryRun then Except.ok (st1, true)
      else if fs1.isfile target_file then Except.ok (st1, false)
      else
        match dictFind fs1.files source_file with
        | none => Except.error 1
        | some realHash =>
          let fs2 := fs1.addFile target_file realHash
          match calc_hash fs2 target_file with
          | Except.error e => Except.error e
          | Except.ok output_file_hash =>
            if output_file_hash = source_hash then
              Except.ok ({ st1 with
                fs := fs2
                copies := dictInsert st1.copies output_file_hash target_file }, false)
            else Except.error 3

/-- The copy loop over the items of the final global dict `d` (lines
250–308): compare-only records are skipped by `continue`; for the rest
`copyStep` runs, and the dry-run flag `break`s out of the whole loop. -/
def copyLoop (a : Args) (choice : Nat → Fin 26) :
    List (Digest × FileRec) → CopyState → Except Nat CopyState
  | [], st => Except.ok st
  | (source_hash, value) :: rest, st =>
    if value.copyFlag = false then copyLoop a choice rest st
    else
      match copyStep a choice st source_hash value with
      | Except.error e => Except.error e
      | Except.ok (st', brk) =>
        if brk then Except.ok st' else copyLoop a choice rest st'

/-- The observable outcome of a successful run. -/
structure RunResult where
  fs : Fs
  d : List (Digest × FileRec)
  collisions : List (Digest × List FileRec)
  copies : List (Digest × String)
  renames : List String
deriving Repr, DecidableEq

/-- `merge_sources` end to end: the target-exists check (lines 120–123,
`sys.exit(1)` when the target directory is missing), the merge phase, and
the copy phase. -/
def merge_sources (a : Args) (fs : Fs) (choice : Nat → Fin 26) :
    Except Nat RunResult :=
  if !fs.isdir a.target then Except.error 1
  else
    match mergePhase fs a with
    | Except.error e => Except.error e
    | Except.ok ms =>
      match copyLoop a choice ms.d ⟨fs, [], [], 0⟩ with
      | Except.error e => Except.error e
      | Except.ok cst =>
        Except.ok ⟨cst.fs, ms.d, ms.collisions, cst.copies, cst.renames⟩

/-- `len(d)`: the reported unique-file count (line 322). -/
def uniqueCount (r : RunResult) : Nat := r.d.length

/-- `len(collisions)`: the reported duplicate-set count (line 323). -/
def duplicateSetCount (r : RunResult) : Nat := r.collisions.length

/-! ## Derived notions used in the statements -/

/-- Digest the model assigns to a file known to exist (`calc_hash`'s
successful result). -/
def hashOf (fs : Fs) (f : String) : Digest :=
  (dictFind fs.files f).getD ""

/-- All files of a folder exist at hashing time. -/
abbrev filesPresent (fs : Fs) (files : List String) : Prop :=
  ∀ f ∈ files, (dictFind fs.files f).isSome = true

/-- Every file enumerated in any declared source folder exists. -/
abbrev allPresent (fs : Fs) (a : Args) : Prop :=
  ∀ folder ∈ a.compareOnly ++ a.folders, filesPresent fs folder.files

/-- No folder-local map is loaded from a persisted cache in this run
(either `--load-hashes` is absent, or no statefile exists). -/
abbrev noCacheLoaded (a : Args) : Prop :=
  ∀ folder ∈ a.compareOnly ++ a.folders,
    (if a.loadHashes then folder.cached else none) = none

/-- The flat occurrence list of one scanned folder: each enumerated file
paired with its digest and its would-be record. -/
def folderOccs (fs : Fs) (idx : Nat) (flag : Bool) (files : List String) :
    List (Digest × FileRec) :=
  files.map (fun f => (hashOf fs f, ⟨f, idx, flag⟩))

/-- Flat occurrence list of a folder list, with `enumerate` indices. -/
def foldersOccs (fs : Fs) (flag : Bool) : Nat → List SourceFolder → List (Digest × FileRec)
  | _, [] => []
  | idx, folder :: rest =>
    folderOccs fs idx flag folder.files ++ foldersOccs fs flag (idx + 1) rest

/-- The whole run's occurrence sequence: compare-only folders first, then
copy-eligible folders, each in caller order. -/
def allOccs (fs : Fs) (a : Args) : List (Digest × FileRec) :=
  foldersOccs fs false 0 a.compareOnly ++ foldersOccs fs true 0 a.folders

/-- All files enumerated in all declared source folders. -/
def allSourceFiles (a : Args) : List String :=
  ((a.compareOnly.map SourceFolder.files).flatten) ++
    ((a.folders.map SourceFolder.files).flatten)

/-- The digests of all enumerated files. -/
def allDigests (fs : Fs) (a : Args) : List Digest :=
  (allSourceFiles a).map (hashOf fs)

/-- The digest-classification step of the hashing loop, folder structure
flattened away: insert as canonical when the digest is new to the combined
map, otherwise append to the collision list. -/
def flatStep (st : MergeState) (o : Digest × FileRec) : MergeState :=
  if (dictFind st.d o.1).isNone then
    { st with d := dictInsert st.d o.1 o.2 }
  else if (dictFind st.collisions o.1).isSome then
    { st with collisions :=
      (dictInsert st.collisions o.1
        (((dictFind st.collisions o.1).getD []) ++ [o.2])) }
  else
    { st with collisions := st.collisions ++ [(o.1, [o.2])] }

/-- Folding the flat step over an occurrence list. -/
def flatFold (l : List (Digest × FileRec)) (st : MergeState) : MergeState :=
  l.foldl flatStep st

/-- The records of the occurrences of one digest, in discovery order. -/
def occsOf (h : Digest) (l : List (Digest × FileRec)) : List FileRec :=
  (l.filter (fun o => o.1 = h)).map Prod.snd

/-- The successive candidate names the fix loop generates from `target`
when every attempt collides: `n` further candidates, consuming one
randomness draw each. -/
def candChain (choice : Nat → Fin 26) (dir : String) : Nat → String → Nat → List String
  | _, _, 0 => []
  | t, target, n + 1 =>
    nextCandidate choice dir t target ::
      candChain choice dir (t + 1) (nextCandidate choice dir t target) n

/-- The last element of `target` followed by its candidate chain. -/
def chainLast (choice : Nat → Fin 26) (dir : String) : Nat → String → Nat → String
  | _, target, 0 => target
  | t, target, n + 1 => chainLast choice dir (t + 1) (nextCandidate choice dir t target) n

/-! ## Concrete run configurations used as counterexamples and witnesses -/

/-- A deterministic randomness oracle: every drawn letter is `a`. -/
def chA : Nat → Fin 26 := fun _ => ⟨0, by decide⟩

/-- C2 counterexample: `/c/f.txt` (content `h1`) is scanned first; the
copy-eligible folder `/b` then loads a stale cached map that also contains
digest `h1`. -/
def c2Fs : Fs := ⟨[("/c/f.txt", "h1")], ["/t", "/c", "/b"]⟩

def c2Args : Args :=
  ⟨"/", "/t", [⟨"/c", ["/c/f.txt"], none⟩],
    [⟨"/b", [], some [("h1", ⟨"/b/g.txt", 0, false⟩)]⟩], true, false⟩

/-- C2 witness: a cache-free folder pass over `/a/x` run against a global
index that already holds digest `h0`. -/
def c2wFs : Fs := ⟨[("/a/x", "hx")], ["/a"]⟩

def c2wFols : List SourceFolder := [⟨"/a", ["/a/x"], none⟩]

def c2wRec : FileRec := ⟨"/z/old", 0, false⟩

def c2wOut : MergeState := ⟨[("h0", c2wRec), ("hx", ⟨"/a/x", 0, true⟩)], []⟩

/-- C3/C4 witness runs: two copy-eligible folders holding the same content
`h1` under the name `note.txt`. -/
def dupFs : Fs := ⟨[("/a/note.txt", "h1"), ("/b/note.txt", "h1")], ["/t", "/a", "/b"]⟩

def dupArgs : Args :=
  ⟨"/", "/t", [], [⟨"/a", ["/a/note.txt"], none⟩, ⟨"/b", ["/b/note.txt"], none⟩],
    false, false⟩

def dupMs : MergeState :=
  ⟨[("h1", ⟨"/a/note.txt", 0, true⟩)],
    [("h1", [⟨"/b/note.txt", 1, true⟩])]⟩

/-- C1 counterexample run: the target already contains the
correctly-named, correct-content file `/t/a.txt` for the only canonical
copy-eligible record. -/
def c1Fs : Fs := ⟨[("/src/a.txt", "h1"), ("/t/a.txt", "h1")], ["/t", "/src"]⟩

def c1Args : Args := ⟨"/", "/t", [], [⟨"/src", ["/src/a.txt"], none⟩], false, false⟩

def c1Rec : FileRec := ⟨"/src/a.txt", 0, true⟩

def c1Res : RunResult :=
  ⟨⟨[("/src/a.txt", "h1"), ("/t/a.txt", "h1"), ("/t/a__COPYaaaa.txt", "h1")],
      ["/t", "/src"]⟩,
    [("h1", c1Rec)], [], [("h1", "/t/a__COPYaaaa.txt")], ["/t/a__COPYaaaa.txt"]⟩

/-- The state after `copyStep` processes the single record of the C1 run. -/
def c1StepOut : CopyState :=
  ⟨⟨[("/src/a.txt", "h1"), ("/t/a.txt", "h1"), ("/t/a__COPYaaaa.txt", "h1")],
      ["/t", "/src"]⟩,
    [("h1", "/t/a__COPYaaaa.txt")], ["/t/a__COPYaaaa.txt"], 1⟩

/-- C5 witness run: content `h1` lives both in the compare-only folder
`/c` and the copy-eligible folder `/b`; `h2` only in `/b`. -/
def c5Fs : Fs :=
  ⟨[("/c/x.txt", "h1"), ("/b/y.txt", "h1"), ("/b/z.txt", "h2")], ["/t", "/c", "/b"]⟩

def c5Args : Args :=
  ⟨"/", "/t", [⟨"/c", ["/c/x.txt"], none⟩],
    [⟨"/b", ["/b/y.txt", "/b/z.txt"], none⟩], false, false⟩

def c5Ms : MergeState :=
  ⟨[("h1", ⟨"/c/x.txt", 0, false⟩), ("h2", ⟨"/b/z.txt", 0, true⟩)],
    [("h1", [⟨"/b/y.txt", 0, true⟩])]⟩

def c5Res : RunResult :=
  ⟨⟨[("/c/x.txt", "h1"), ("/b/y.txt", "h1"), ("/b/z.txt", "h2"), ("/t/z.txt", "h2")],
      ["/t", "/c", "/b"]⟩,
    c5Ms.d, c5Ms.collisions, [("h2", "/t/z.txt")], []⟩

/-- C6 witness run: the cached record promises digest `h1` for
`/b/g.txt`, whose actual content digest is `h2` — the post-copy re-hash
mismatches. -/
def c6Fs : Fs := ⟨[("/b/g.txt", "h2")], ["/t", "/b"]⟩

def c6Args : Args :=
  ⟨"/", "/t", [], [⟨"/b", [], some [("h1", ⟨"/b/g.txt", 0, false⟩)]⟩], true, false⟩

def c6Rec : FileRec := ⟨"/b/g.txt", 0, true⟩

/-- C7 witness filesystem: `/t/a.txt` and all five successor candidates
under the all-`a` randomness oracle exist, exhausting the fix loop. -/
def c7Fs : Fs :=
  ⟨[("/t/a.txt", "x"),
    ("/t/a__COPYaaaa.txt", "x"),
    ("/t/a__COPYaaaa__COPYaaaa.txt", "x"),
    ("/t/a__COPYaaaa__COPYaaaa__COPYaaaa.txt", "x"),
    ("/t/a__COPYaaaa__COPYaaaa__COPYaaaa__COPYaaaa.txt", "x"),
    ("/t/a__COPYaaaa__COPYaaaa__COPYaaaa__COPYaaaa__COPYaaaa.txt", "x")], ["/t"]⟩

/-- C8 witness run: two copy-eligible records pending, `--dry-run` set. -/
def c8Fs : Fs := ⟨[("/a/note.txt", "h1"), ("/b/note.txt", "h2")], ["/t", "/a", "/b"]⟩

def c8Args : Args :=
  ⟨"/", "/t", [], [⟨"/a", ["/a/note.txt"], none⟩, ⟨"/b", ["/b/note.txt"], none⟩],
    false, true⟩

def c8Res : RunResult :=
  ⟨c8Fs,
    [("h1", ⟨"/a/note.txt", 0, true⟩), ("h2", ⟨"/b/note.txt", 1, true⟩)],
    [], [], []⟩

def c8ResWet : RunResult :=
  ⟨⟨[("/a/note.txt", "h1"), ("/b/note.txt", "h2"), ("/t/note.txt", "h1"),
      ("/t/note__COPYaaaa.txt", "h2")], ["/t", "/a", "/b"]⟩,
    [("h1", ⟨"/a/note.txt", 0, true⟩), ("h2", ⟨"/b/note.txt", 1, true⟩)],
    [], [("h1", "/t/note.txt"), ("h2", "/t/note__COPYaaaa.txt")],
    ["/t/note__COPYaaaa.txt"]⟩

/-- C9 witness run: `/a/gone.txt` is enumerated but absent at hashing
time. -/
def c9Fs : Fs := ⟨[("/a/keep.txt", "h1")], ["/t", "/a"]⟩

def c9Args : Args :=
  ⟨"/", "/t", [], [⟨"/a", ["/a/keep.txt", "/a/gone.txt"], none⟩], false, false⟩

/-- C10 witness run: one copy-eligible record, no target collision. -/
def c10Fs : Fs := ⟨[("/s/f.bin", "h9")], ["/t", "/s"]⟩

def c10Args : Args := ⟨"/", "/t", [], [⟨"/s", ["/s/f.bin"], none⟩], false, false⟩

def c10Rec : FileRec := ⟨"/s/f.bin", 0, true⟩

def c10StepOut : CopyState :=
  ⟨⟨[("/s/f.bin", "h9"), ("/t/f.bin", "h9")], ["/t", "/s"]⟩,
    [("h9", "/t/f.bin")], [], 0⟩

/-! ## Dictionary lemmas -/

theorem dictFind_dictInsert {α : Type} (m : List (String × α)) (k k' : String) (v : α) :
    dictFind (dictInsert m k v) k' = if k = k' then some v else dictFind m k' := by
  induction m with
  | nil => simp [dictFind, dictInsert]
  | cons kv rest ih =>
    obtain ⟨k₀, v₀⟩ := kv
    by_cases h₀ : k₀ = k
    · subst h₀
      by_cases h₁ : k₀ = k' <;> simp [dictFind, dictInsert, h₁]
    · by_cases h₁ : k₀ = k'
      · subst h₁
        have : ¬ k = k₀ := fun h => h₀ h.symm
        simp [dictFind, dictInsert, h₀, this]
      · simp [dictFind, dictInsert, h₀, h₁, ih]

theorem dictFind_append {α : Type} (m m' : List (String × α)) (k : String) :
    dictFind (m ++ m') k = (dictFind m k).or (dictFind m' k) := by
  induction m with
  | nil => simp [dictFind]
  | cons kv rest ih =>
    by_cases h : kv.1 = k <;> simp [dictFind, h, ih]

theorem dictFind_eq_none_iff {α : Type} (m : List (String × α)) (k : String) :
    dictFind m k = none ↔ ∀ v : α, (k, v) ∉ m := by
  induction m with
  | nil => simp [dictFind]
  | cons kv rest ih =>
    obtain ⟨k₀, v₀⟩ := kv
    by_cases h : k₀ = k
    · subst h
      constructor
      · intro he
        simp [dictFind] at he
      · intro hv
        exact absurd (List.mem_cons_self _ _) (hv v₀)
    · rw [show dictFind ((k₀, v₀) :: rest) k = dictFind rest k by simp [dictFind, h], ih]
      constructor
      · intro hv v hmem
        rcases List.mem_cons.mp hmem with he | hm
        · exact h (congrArg Prod.fst he).symm
        · exact hv v hm
      · intro hv v hm
        exact hv v (List.mem_cons_of_mem _ hm)

theorem mem_of_dictFind {α : Type} (m : List (String × α)) (k : String) (v : α)
    (h : dictFind m k = some v) : (k, v) ∈ m := by
  induction m with
  | nil => simp [dictFind] at h
  | cons kv rest ih =>
    by_cases h₀ : kv.1 = k
    · obtain ⟨k₀, v₀⟩ := kv
      simp only at h₀
      subst h₀
      simp [dictFind] at h
      simp [h]
    · simp [dictFind, h₀] at h
      exact List.mem_cons_of_mem _ (ih h)

theorem dictFind_of_mem_nodup {α : Type} (m : List (String × α)) (k : String) (v : α)
    (hnd : (m.map Prod.fst).Nodup) (hmem : (k, v) ∈ m) : dictFind m k = some v := by
  induction m with
  | nil => simp at hmem
  | cons kv rest ih =>
    obtain ⟨k₀, v₀⟩ := kv
    simp only [List.map_cons, List.nodup_cons] at hnd
    rcases List.mem_cons.mp hmem with h | h
    · obtain ⟨hk, hv⟩ := Prod.mk.injEq .. ▸ h
      cases h
      simp [dictFind]
    · have hk : k₀ ≠ k := by
        intro he
        subst he
        exact hnd.1 (List.mem_map.mpr ⟨(k₀, v), h, rfl⟩)
      simp [dictFind, hk]
      exact ih hnd.2 h

theorem dictInsert_eq_append {α : Type} (m : List (String × α)) (k : String) (v : α)
    (h : dictFind m k = none) : dictInsert m k v = m ++ [(k, v)] := by
  induction m with
  | nil => simp [dictInsert]
  | cons kv rest ih =>
    by_cases h₀ : kv.1 = k
    · obtain ⟨k₀, v₀⟩ := kv
      simp only at h₀
      subst h₀
      simp [dictFind] at h
    · obtain ⟨k₀, v₀⟩ := kv
      simp only at h₀
      simp [dictFind, h₀] at h
      simp [dictInsert, h₀, ih h]

theorem dictInsert_append_left {α : Type} (d s : List (String × α)) (k : String) (v : α)
    (h : dictFind d k = none) : dictInsert (d ++ s) k v = d ++ dictInsert s k v := by
  induction d with
  | nil => simp
  | cons kv rest ih =>
    by_cases h₀ : kv.1 = k
    · obtain ⟨k₀, v₀⟩ := kv
      simp only at h₀
      subst h₀
      simp [dictFind] at h
    · obtain ⟨k₀, v₀⟩ := kv
      simp only at h₀
      simp [dictFind, h₀] at h
      simp [dictInsert, h₀, ih h]

theorem dictUpdate_eq_append {α : Type} (s : List (String × α)) :
    ∀ d : List (String × α),
    (∀ kv ∈ s, dictFind d kv.1 = none) → (s.map Prod.fst).Nodup →
    dictUpdate d s = d ++ s := by
  induction s with
  | nil => intro d _ _; simp [dictUpdate]
  | cons kv rest ih =>
    intro d hfresh hnd
    obtain ⟨k, v⟩ := kv
    simp only [List.map_cons, List.nodup_cons] at hnd
    have h₁ : dictFind d k = none := hfresh (k, v) (List.mem_cons_self _ _)
    have step : dictUpdate d ((k, v) :: rest) = dictUpdate (dictInsert d k v) rest := rfl
    rw [step, dictInsert_eq_append _ _ _ h₁, ih (d ++ [(k, v)]) ?_ hnd.2, List.append_assoc]
    · simp
    · intro kv' hmem
      rw [dictFind_append]
      have hd : dictFind d kv'.1 = none := hfresh kv' (List.mem_cons_of_mem _ hmem)
      have hk : k ≠ kv'.1 := by
        intro he
        exact hnd.1 (he ▸ List.mem_map.mpr ⟨kv', hmem, rfl⟩)
      simp [hd, dictFind, hk]

theorem dictFind_dictUpdate_not_mem {α : Type} (s : List (String × α)) :
    ∀ d : List (String × α), ∀ k : String,
    dictFind s k = none → dictFind (dictUpdate d s) k = dictFind d k := by
  induction s with
  | nil => intro d k _; rfl
  | cons kv rest ih =>
    intro d k hnone
    obtain ⟨k₀, v₀⟩ := kv
    by_cases h₀ : k₀ = k
    · simp [dictFind, h₀] at hnone
    · simp [dictFind, h₀] at hnone
      have step : dictUpdate d ((k₀, v₀) :: rest) = dictUpdate (dictInsert d k₀ v₀) rest := rfl
      rw [step, ih _ _ hnone, dictFind_dictInsert]
      simp [h₀]

theorem not_mem_keys_of_dictFind_none {α : Type} (m : List (String × α)) (k : String)
    (h : dictFind m k = none) : k ∉ m.map Prod.fst := by
  intro hmem
  obtain ⟨kv, hkv, hfst⟩ := List.mem_map.mp hmem
  have : (k, kv.2) ∈ m := by
    have : kv = (k, kv.2) := by
      obtain ⟨a, b⟩ := kv
      simp at hfst
      simp [hfst]
    exact this ▸ hkv
  exact (dictFind_eq_none_iff m k).mp h kv.2 this

/-! ## Equivalence of the folder-chunked merge phase with the flat fold -/

theorem calc_hash_of_present (fs : Fs) (f : String)
    (h : (dictFind fs.files f).isSome = true) :
    calc_hash fs f = Except.ok (hashOf fs f) := by
  unfold calc_hash hashOf
  cases hf : dictFind fs.files f with
  | none => rw [hf] at h; simp at h
  | some d => simp

theorem scanStep_flat (d : List (Digest × FileRec)) (fs : Fs) (idx : Nat) (flag : Bool)
    (s : List (Digest × FileRec)) (coll : List (Digest × List FileRec)) (f : String)
    (hpres : (dictFind fs.files f).isSome = true) :
    ∃ s' coll', scanStep d fs idx flag ⟨s, coll⟩ f = Except.ok ⟨s', coll'⟩ ∧
      flatStep ⟨d ++ s, coll⟩ (hashOf fs f, ⟨f, idx, flag⟩) = ⟨d ++ s', coll'⟩ := by
  unfold scanStep flatStep
  rw [calc_hash_of_present fs f hpres]
  cases hd : dictFind d (hashOf fs f) with
  | none =>
    cases hs : dictFind s (hashOf fs f) with
    | none =>
      refine ⟨dictInsert s (hashOf fs f) ⟨f, idx, flag⟩, coll, ?_, ?_⟩
      · simp [hd, hs]
      · simp [dictFind_append, hd, hs, dictInsert_append_left _ _ _ _ hd]
    | some v =>
      cases hc : dictFind coll (hashOf fs f) with
      | none =>
        refine ⟨s, coll ++ [(hashOf fs f, [⟨f, idx, flag⟩])], ?_, ?_⟩
        · simp [hd, hs, hc]
        · simp [dictFind_append, hd, hs, hc]
      | some cv =>
        refine ⟨s, dictInsert coll (hashOf fs f) (cv ++ [⟨f, idx, flag⟩]), ?_, ?_⟩
        · simp [hd, hs, hc]
        · simp [dictFind_append, hd, hs, hc]
  | some v =>
    cases hc : dictFind coll (hashOf fs f) with
    | none =>
      refine ⟨s, coll ++ [(hashOf fs f, [⟨f, idx, flag⟩])], ?_, ?_⟩
      · simp [hd, hc]
      · simp [dictFind_append, hd, hc]
    | some cv =>
      refine ⟨s, dictInsert coll (hashOf fs f) (cv ++ [⟨f, idx, flag⟩]), ?_, ?_⟩
      · simp [hd, hc]
      · simp [dictFind_append, hd, hc]

theorem scanFiles_flat (d : List (Digest × FileRec)) (fs : Fs) (idx : Nat) (flag : Bool) :
    ∀ (files : List String) (s : List (Digest × FileRec))
      (coll : List (Digest × List FileRec)),
    filesPresent fs files →
    ∃ s' coll', scanFiles d fs idx flag files ⟨s, coll⟩ = Except.ok ⟨s', coll'⟩ ∧
      flatFold (folderOccs fs idx flag files) ⟨d ++ s, coll⟩ = ⟨d ++ s', coll'⟩ := by
  intro files
  induction files with
  | nil => exact fun s coll _ => ⟨s, coll, rfl, rfl⟩
  | cons f rest ih =>
    intro s coll hpres
    obtain ⟨s₁, c₁, hstep, hflat⟩ :=
      scanStep_flat d fs idx flag s coll f (hpres f (List.mem_cons_self _ _))
    obtain ⟨s', c', hrest, hflat'⟩ :=
      ih s₁ c₁ (fun g hg => hpres g (List.mem_cons_of_mem _ hg))
    refine ⟨s', c', ?_, ?_⟩
    · simp [scanFiles, hstep, hrest]
    · simp only [folderOccs, List.map_cons, flatFold, List.foldl_cons] at hflat' ⊢
      rw [hflat]
      exact hflat'

theorem scanStep_s_inv (d : List (Digest × FileRec)) (fs : Fs) (idx : Nat) (flag : Bool)
    (s s' : List (Digest × FileRec)) (coll coll' : List (Digest × List FileRec)) (f : String)
    (hok : scanStep d fs idx flag ⟨s, coll⟩ f = Except.ok ⟨s', coll'⟩)
    (hfresh : ∀ kv ∈ s, dictFind d kv.1 = none) (hnd : (s.map Prod.fst).Nodup) :
    (∀ kv ∈ s', dictFind d kv.1 = none) ∧ (s'.map Prod.fst).Nodup := by
  unfold scanStep at hok
  cases hh : calc_hash fs f with
  | error e => rw [hh] at hok; exact absurd hok (by simp)
  | ok fh =>
    rw [hh] at hok
    dsimp only at hok
    by_cases hcond : ((dictFind d fh).isNone && (dictFind s fh).isNone) = true
    · rw [if_pos hcond] at hok
      obtain ⟨hdn, hsn⟩ := Bool.and_eq_true_iff.mp hcond
      rw [Option.isNone_iff_eq_none] at hdn hsn
      simp only [Except.ok.injEq, FolderLocal.mk.injEq] at hok
      obtain ⟨h1, _⟩ := hok
      have hs' : s' = s ++ [(fh, FileRec.mk f idx flag)] := by
        rw [← h1, dictInsert_eq_append _ _ _ hsn]
      subst hs'
      constructor
      · intro kv hkv
        rcases List.mem_append.mp hkv with hm | hm
        · exact hfresh kv hm
        · rw [List.mem_singleton] at hm
          rw [hm]
          exact hdn
      · rw [List.map_append, List.nodup_append]
        refine ⟨hnd, by simp, ?_⟩
        intro x hx
        simp only [List.map_cons, List.map_nil, List.mem_singleton]
        intro he
        exact not_mem_keys_of_dictFind_none s fh hsn (he ▸ hx)
    · rw [if_neg hcond] at hok
      have hs'' : s' = s := by
        by_cases hc : (dictFind coll fh).isSome = true
        · rw [if_pos hc] at hok
          simp only [Except.ok.injEq, FolderLocal.mk.injEq] at hok
          exact hok.1.symm
        · rw [if_neg hc] at hok
          simp only [Except.ok.injEq, FolderLocal.mk.injEq] at hok
          exact hok.1.symm
      subst hs''
      exact ⟨hfresh, hnd⟩

theorem scanFiles_s_inv (d : List (Digest × FileRec)) (fs : Fs) (idx : Nat) (flag : Bool) :
    ∀ (files : List String) (s s' : List (Digest × FileRec))
      (coll coll' : List (Digest × List FileRec)),
    scanFiles d fs idx flag files ⟨s, coll⟩ = Except.ok ⟨s', coll'⟩ →
    (∀ kv ∈ s, dictFind d kv.1 = none) → (s.map Prod.fst).Nodup →
    (∀ kv ∈ s', dictFind d kv.1 = none) ∧ (s'.map Prod.fst).Nodup := by
  intro files
  induction files with
  | nil =>
    intro s s' coll coll' hok hfresh hnd
    simp only [scanFiles, Except.ok.injEq] at hok
    have h₁ : s' = s := (congrArg FolderLocal.s hok).symm
    subst h₁
    exact ⟨hfresh, hnd⟩
  | cons f rest ih =>
    intro s s' coll coll' hok hfresh hnd
    unfold scanFiles at hok
    cases hstep : scanStep d fs idx flag ⟨s, coll⟩ f with
    | error e => rw [hstep] at hok; exact absurd hok (by simp)
    | ok st₁ =>
      rw [hstep] at hok
      obtain ⟨s₁, c₁⟩ := st₁
      obtain ⟨hf₁, hn₁⟩ := scanStep_s_inv d fs idx flag s s₁ coll c₁ f hstep hfresh hnd
      exact ih s₁ s' c₁ coll' hok hf₁ hn₁

theorem processFolder_flat (fs : Fs) (lh co : Bool) (st : MergeState) (idx : Nat)
    (folder : SourceFolder)
    (hnc : (if lh then folder.cached else none) = none)
    (hpres : filesPresent fs folder.files) :
    processFolder fs lh co st idx folder =
      Except.ok (flatFold (folderOccs fs idx (!co) folder.files) st) := by
  obtain ⟨d, coll⟩ := st
  unfold processFolder
  rw [hnc]
  dsimp only
  obtain ⟨s', c', hok, hflat⟩ := scanFiles_flat d fs idx (!co) folder.files [] coll hpres
  rw [hok]
  obtain ⟨hfresh, hnd⟩ := scanFiles_s_inv d fs idx (!co) folder.files [] s' coll c' hok
    (by simp) (by simp)
  dsimp only
  rw [dictUpdate_eq_append s' d hfresh hnd]
  have hflat' : flatFold (folderOccs fs idx (!co) folder.files) ⟨d, coll⟩ = ⟨d ++ s', c'⟩ := by
    simpa using hflat
  rw [hflat']

theorem processFolders_flat (fs : Fs) (lh co : Bool) :
    ∀ (fols : List SourceFolder) (idx : Nat) (st : MergeState),
    (∀ folder ∈ fols, (if lh then folder.cached else none) = none) →
    (∀ folder ∈ fols, filesPresent fs folder.files) →
    processFolders fs lh co idx fols st =
      Except.ok (flatFold (foldersOccs fs (!co) idx fols) st) := by
  intro fols
  induction fols with
  | nil => intro idx st _ _; rfl
  | cons folder rest ih =>
    intro idx st hnc hpres
    unfold processFolders
    rw [processFolder_flat fs lh co st idx folder (hnc _ (List.mem_cons_self _ _))
      (hpres _ (List.mem_cons_self _ _))]
    dsimp only
    rw [ih (idx + 1) _ (fun g hg => hnc g (List.mem_cons_of_mem _ hg))
      (fun g hg => hpres g (List.mem_cons_of_mem _ hg))]
    simp [foldersOccs, flatFold, List.foldl_append]

theorem mergePhase_flat (fs : Fs) (a : Args)
    (hnc : noCacheLoaded a) (hpres : allPresent fs a) :
    mergePhase fs a = Except.ok (flatFold (allOccs fs a) ⟨[], []⟩) := by
  unfold mergePhase
  rw [processFolders_flat fs a.loadHashes true a.compareOnly 0 ⟨[], []⟩
      (fun g hg => hnc g (List.mem_append_left _ hg))
      (fun g hg => hpres g (List.mem_append_left _ hg))]
  dsimp only
  rw [processFolders_flat fs a.loadHashes false a.folders 0 _
      (fun g hg => hnc g (List.mem_append_right _ hg))
      (fun g hg => hpres g (List.mem_append_right _ hg))]
  simp [allOccs, flatFold, List.foldl_append]

/-! ## Behaviour of the flat fold -/

theorem flatFold_snoc (l : List (Digest × FileRec)) (o : Digest × FileRec) (st : MergeState) :
    flatFold (l ++ [o]) st = flatStep (flatFold l st) o := by
  simp [flatFold, List.foldl_append]

theorem occsOf_append_ne (h : Digest) (l : List (Digest × FileRec)) (h₀ : Digest)
    (r : FileRec) (hne : h₀ ≠ h) : occsOf h (l ++ [(h₀, r)]) = occsOf h l := by
  simp [occsOf, List.filter_append, hne]

theorem occsOf_append_eq (h : Digest) (l : List (Digest × FileRec)) (r : FileRec) :
    occsOf h (l ++ [(h, r)]) = occsOf h l ++ [r] := by
  simp [occsOf, List.filter_append]

/-- Final contents of the global dict and the collision dict after folding
an occurrence list: the canonical record of a digest is its first
occurrence, and the collision entry exists exactly for digests with at
least two occurrences and holds all occurrences but the first, in order. -/
theorem flat_spec (l : List (Digest × FileRec)) (h : Digest) :
    dictFind (flatFold l ⟨[], []⟩).d h = (occsOf h l).head?
    ∧ dictFind (flatFold l ⟨[], []⟩).collisions h =
        (if 2 ≤ (occsOf h l).length then some ((occsOf h l).drop 1) else none) := by
  induction l using List.reverseRecOn with
  | nil => simp [flatFold, occsOf, dictFind]
  | append_singleton l o ih =>
    obtain ⟨ih₁, ih₂⟩ := ih
    rw [flatFold_snoc]
    obtain ⟨h₀, r⟩ := o
    by_cases he : h₀ = h
    · subst he
      rw [occsOf_append_eq]
      unfold flatStep
      dsimp only
      cases hocc : occsOf h₀ l with
      | nil =>
        rw [hocc] at ih₁ ih₂
        simp only [List.head?_nil] at ih₁
        simp only [List.length_nil] at ih₂
        rw [if_neg (by omega)] at ih₂
        simp only [ih₁, Option.isNone_none, if_pos]
        constructor
        · simp [dictFind_dictInsert]
        · simpa using ih₂
      | cons r₀ occ' =>
        rw [hocc] at ih₁ ih₂
        simp only [List.head?_cons] at ih₁
        simp only [ih₁, Option.isNone_some, Bool.false_eq_true, if_false]
        cases occ' with
        | nil =>
          rw [if_neg (by simp)] at ih₂
          simp only [ih₂, Option.isSome_none, Bool.false_eq_true, if_false]
          constructor
          · simpa using ih₁
          · rw [dictFind_append, ih₂, if_pos (by simp)]
            simp [dictFind]
        | cons r₁ occ'' =>
          rw [if_pos (by simp)] at ih₂
          simp only [ih₂, Option.isSome_some, if_true]
          constructor
          · simpa using ih₁
          · rw [dictFind_dictInsert, if_pos rfl, if_pos (by simp)]
            simp
    · rw [occsOf_append_ne h l h₀ r he]
      unfold flatStep
      dsimp only
      by_cases hd : (dictFind (flatFold l ⟨[], []⟩).d h₀).isNone = true
      · rw [if_pos hd]
        constructor
        · rw [dictFind_dictInsert, if_neg he]
          exact ih₁
        · exact ih₂
      · rw [if_neg hd]
        by_cases hc : (dictFind (flatFold l ⟨[], []⟩).collisions h₀).isSome = true
        · rw [if_pos hc]
          refine ⟨ih₁, ?_⟩
          rw [dictFind_dictInsert, if_neg he]
          exact ih₂
        · rw [if_neg hc]
          refine ⟨ih₁, ?_⟩
          rw [dictFind_append]
          simp only [dictFind, he, if_neg he]
          rw [ih₂]
          cases hif : (if 2 ≤ (occsOf h l).length then some ((occsOf h l).drop 1) else none) <;>
            simp

theorem flatStep_d_preserved (st : MergeState) (o : Digest × FileRec) (h : Digest)
    (r : FileRec) (hf : dictFind st.d h = some r) :
    dictFind (flatStep st o).d h = some r := by
  unfold flatStep
  by_cases hd : (dictFind st.d o.1).isNone = true
  · rw [if_pos hd]
    dsimp only
    rw [dictFind_dictInsert]
    by_cases he : o.1 = h
    · subst he
      rw [hf] at hd
      simp at hd
    · rw [if_neg he]
      exact hf
  · rw [if_neg hd]
    by_cases hc : (dictFind st.collisions o.1).isSome = true
    · rw [if_pos hc]
      exact hf
    · rw [if_neg hc]
      exact hf

theorem flatStep_keys_nodup (st : MergeState) (o : Digest × FileRec)
    (hnd : (st.d.map Prod.fst).Nodup) : ((flatStep st o).d.map Prod.fst).Nodup := by
  unfold flatStep
  by_cases hd : (dictFind st.d o.1).isNone = true
  · rw [if_pos hd]
    dsimp only
    rw [dictInsert_eq_append _ _ _ (Option.isNone_iff_eq_none.mp hd), List.map_append,
      List.nodup_append]
    refine ⟨hnd, by simp, ?_⟩
    intro x hx
    simp only [List.map_cons, List.map_nil, List.mem_singleton]
    intro he
    exact not_mem_keys_of_dictFind_none _ _ (Option.isNone_iff_eq_none.mp hd) (he ▸ hx)
  · rw [if_neg hd]
    by_cases hc : (dictFind st.collisions o.1).isSome = true
    · rw [if_pos hc]
      exact hnd
    · rw [if_neg hc]
      exact hnd

theorem flatFold_d_preserved (l : List (Digest × FileRec)) :
    ∀ (st : MergeState) (h : Digest) (r : FileRec),
    dictFind st.d h = some r → dictFind (flatFold l st).d h = some r := by
  induction l with
  | nil => exact fun st h r hf => hf
  | cons o rest ih =>
    intro st h r hf
    exact ih (flatStep st o) h r (flatStep_d_preserved st o h r hf)

theorem flatFold_keys_nodup (l : List (Digest × FileRec)) :
    ∀ st : MergeState, (st.d.map Prod.fst).Nodup →
    ((flatFold l st).d.map Prod.fst).Nodup := by
  induction l with
  | nil => exact fun st hnd => hnd
  | cons o rest ih =>
    intro st hnd
    exact ih (flatStep st o) (flatStep_keys_nodup st o hnd)

/-! ## Occurrence-list bookkeeping -/

theorem occsOf_append (h : Digest) (l₁ l₂ : List (Digest × FileRec)) :
    occsOf h (l₁ ++ l₂) = occsOf h l₁ ++ occsOf h l₂ := by
  simp [occsOf, List.filter_append]

theorem occsOf_mem (h : Digest) (l : List (Digest × FileRec)) (r : FileRec)
    (hr : r ∈ occsOf h l) : (h, r) ∈ l := by
  obtain ⟨o, ho, hsnd⟩ := List.mem_map.mp hr
  obtain ⟨hol, hfst⟩ := List.mem_filter.mp ho
  obtain ⟨h', r'⟩ := o
  simp only [decide_eq_true_eq] at hfst
  cases hfst
  cases hsnd
  exact hol

theorem occsOf_ne_nil_iff (h : Digest) (l : List (Digest × FileRec)) :
    occsOf h l ≠ [] ↔ h ∈ l.map Prod.fst := by
  constructor
  · intro hne
    cases hocc : occsOf h l with
    | nil => exact absurd hocc hne
    | cons r rest =>
      have : (h, r) ∈ l := occsOf_mem h l r (hocc ▸ List.mem_cons_self _ _)
      exact List.mem_map.mpr ⟨(h, r), this, rfl⟩
  · intro hmem hnil
    obtain ⟨o, ho, hfst⟩ := List.mem_map.mp hmem
    have : o.2 ∈ occsOf h l := by
      refine List.mem_map.mpr ⟨o, List.mem_filter.mpr ⟨ho, by simp [hfst]⟩, rfl⟩
    rw [hnil] at this
    exact absurd this (List.not_mem_nil _)

theorem occsOf_head_isSome_iff (h : Digest) (l : List (Digest × FileRec)) :
    ((occsOf h l).head?).isSome = true ↔ h ∈ l.map Prod.fst := by
  rw [← occsOf_ne_nil_iff]
  cases occsOf h l <;> simp

theorem occsOf_nodup (h : Digest) (l : List (Digest × FileRec))
    (hnd : (l.map Prod.snd).Nodup) : (occsOf h l).Nodup := by
  unfold occsOf
  exact hnd.sublist ((List.filter_sublist l).map Prod.snd)

theorem folderOccs_fst (fs : Fs) (idx : Nat) (flag : Bool) (files : List String) :
    (folderOccs fs idx flag files).map Prod.fst = files.map (hashOf fs) := by
  simp [folderOccs]

theorem foldersOccs_fst (fs : Fs) (flag : Bool) :
    ∀ (fols : List SourceFolder) (i : Nat),
    (foldersOccs fs flag i fols).map Prod.fst =
      ((fols.map SourceFolder.files).flatten).map (hashOf fs) := by
  intro fols
  induction fols with
  | nil => intro i; rfl
  | cons folder rest ih =>
    intro i
    simp [foldersOccs, List.map_append, folderOccs_fst, ih]

theorem allOccs_fst (fs : Fs) (a : Args) :
    (allOccs fs a).map Prod.fst = allDigests fs a := by
  simp [allOccs, allDigests, allSourceFiles, List.map_append, foldersOccs_fst]

theorem foldersOccs_flag (fs : Fs) (flag : Bool) :
    ∀ (fols : List SourceFolder) (i : Nat) (o : Digest × FileRec),
    o ∈ foldersOccs fs flag i fols → o.2.copyFlag = flag := by
  intro fols
  induction fols with
  | nil => intro i o ho; exact absurd ho (List.not_mem_nil _)
  | cons folder rest ih =>
    intro i o ho
    rcases List.mem_append.mp ho with hm | hm
    · obtain ⟨f, _, he⟩ := List.mem_map.mp hm
      rw [← he]
    · exact ih (i + 1) o hm

theorem foldersOccs_idx (fs : Fs) (flag : Bool) :
    ∀ (fols : List SourceFolder) (i : Nat) (o : Digest × FileRec),
    o ∈ foldersOccs fs flag i fols → i ≤ o.2.folderIndex := by
  intro fols
  induction fols with
  | nil => intro i o ho; exact absurd ho (List.not_mem_nil _)
  | cons folder rest ih =>
    intro i o ho
    rcases List.mem_append.mp ho with hm | hm
    · obtain ⟨f, _, he⟩ := List.mem_map.mp hm
      rw [← he]
    · exact Nat.le_of_succ_le (ih (i + 1) o hm)

theorem foldersOccs_snd_nodup (fs : Fs) (flag : Bool) :
    ∀ (fols : List SourceFolder) (i : Nat),
    (∀ folder ∈ fols, folder.files.Nodup) →
    ((foldersOccs fs flag i fols).map Prod.snd).Nodup := by
  intro fols
  induction fols with
  | nil => intro i _; simp [foldersOccs]
  | cons folder rest ih =>
    intro i hnd
    simp only [foldersOccs, List.map_append, List.nodup_append]
    refine ⟨?_, ih (i + 1) (fun g hg => hnd g (List.mem_cons_of_mem _ hg)), ?_⟩
    · simp only [folderOccs, List.map_map]
      refine List.Nodup.map ?_ (hnd folder (List.mem_cons_self _ _))
      intro x y hxy
      simpa using congrArg FileRec.path hxy
    · intro r hr
      obtain ⟨o, ho, he⟩ := List.mem_map.mp hr
      obtain ⟨f, _, hf⟩ := List.mem_map.mp ho
      intro hr'
      obtain ⟨o', ho', he'⟩ := List.mem_map.mp hr'
      have h₁ : r.folderIndex = i := by
        rw [← he, ← hf]
      have h₂ : i + 1 ≤ r.folderIndex := by
        rw [← he']
        exact foldersOccs_idx fs flag rest (i + 1) o' ho'
      omega

theorem allOccs_snd_nodup (fs : Fs) (a : Args)
    (hnd : ∀ folder ∈ a.compareOnly ++ a.folders, folder.files.Nodup) :
    ((allOccs fs a).map Prod.snd).Nodup := by
  simp only [allOccs, List.map_append, List.nodup_append]
  refine ⟨foldersOccs_snd_nodup fs false a.compareOnly 0
      (fun g hg => hnd g (List.mem_append_left _ hg)),
    foldersOccs_snd_nodup fs true a.folders 0
      (fun g hg => hnd g (List.mem_append_right _ hg)), ?_⟩
  intro r hr
  obtain ⟨o, ho, he⟩ := List.mem_map.mp hr
  intro hr'
  obtain ⟨o', ho', he'⟩ := List.mem_map.mp hr'
  have h₁ : r.copyFlag = false := he ▸ foldersOccs_flag fs false a.compareOnly 0 o ho
  have h₂ : r.copyFlag = true := he' ▸ foldersOccs_flag fs true a.folders 0 o' ho'
  rw [h₁] at h₂
  exact Bool.false_ne_true h₂

/-! ## Additivity of the merge without cache loading -/

theorem processFolder_d_preserved (fs : Fs) (lh co : Bool) (st : MergeState) (idx : Nat)
    (folder : SourceFolder) (st' : MergeState)
    (hnc : (if lh then folder.cached else none) = none)
    (hok : processFolder fs lh co st idx folder = Except.ok st') :
    ∀ (h : Digest) (r : FileRec), dictFind st.d h = some r → dictFind st'.d h = some r := by
  intro h r hf
  unfold processFolder at hok
  rw [hnc] at hok
  dsimp only at hok
  cases hscan : scanFiles st.d fs idx (!co) folder.files ⟨[], st.collisions⟩ with
  | error e => rw [hscan] at hok; exact absurd hok (by simp)
  | ok loc =>
    rw [hscan] at hok
    dsimp only at hok
    obtain ⟨s', c'⟩ := loc
    obtain ⟨hfresh, _⟩ := scanFiles_s_inv st.d fs idx (!co) folder.files [] s'
      st.collisions c' hscan (by simp) (by simp)
    have hnone : dictFind s' h = none := by
      rw [dictFind_eq_none_iff]
      intro v hv
      have hd := hfresh (h, v) hv
      rw [hf] at hd
      exact absurd hd (by simp)
    simp only [Except.ok.injEq] at hok
    rw [← hok]
    dsimp only
    rw [dictFind_dictUpdate_not_mem s' st.d h hnone]
    exact hf

theorem processFolders_d_preserved (fs : Fs) (lh co : Bool) :
    ∀ (fols : List SourceFolder) (idx : Nat) (st st' : MergeState),
    (∀ folder ∈ fols, (if lh then folder.cached else none) = none) →
    processFolders fs lh co idx fols st = Except.ok st' →
    ∀ (h : Digest) (r : FileRec), dictFind st.d h = some r → dictFind st'.d h = some r := by
  intro fols
  induction fols with
  | nil =>
    intro idx st st' _ hok h r hf
    simp only [processFolders, Except.ok.injEq] at hok
    rw [← hok]
    exact hf
  | cons folder rest ih =>
    intro idx st st' hnc hok h r hf
    unfold processFolders at hok
    cases hstep : processFolder fs lh co st idx folder with
    | error e => rw [hstep] at hok; exact absurd hok (by simp)
    | ok st₁ =>
      rw [hstep] at hok
      have h₁ := processFolder_d_preserved fs lh co st idx folder st₁
        (hnc folder (List.mem_cons_self _ _)) hstep h r hf
      exact ih (idx + 1) st₁ st' (fun g hg => hnc g (List.mem_cons_of_mem _ hg)) hok h r h₁

/-! ## Claim theorems: merge phase -/

/-- C2 (amended).  For folder passes that are *not* loaded from a
persisted cache, the merge is additive-only: (i) merging the folder lists
never overwrites a canonical record already present in the global index
`d`, and (ii) a folder-local map built by scanning contains no digest
already present in the global index.  (The claim's extension of this to
cache-loaded folder-local maps is refuted by `C2_counterexample`: a loaded
map is used verbatim and `d.update(s)` then overwrites.) -/
theorem C2_additive_merge :
    (∀ (fs : Fs) (lh co : Bool) (fols : List SourceFolder) (idx : Nat) (st st' : MergeState),
      (∀ folder ∈ fols, (if lh then folder.cached else none) = none) →
      processFolders fs lh co idx fols st = Except.ok st' →
      ∀ (h : Digest) (r : FileRec), dictFind st.d h = some r → dictFind st'.d h = some r)
    ∧ (∀ (d : List (Digest × FileRec)) (fs : Fs) (idx : Nat) (flag : Bool)
        (files : List String) (loc : FolderLocal) (coll : List (Digest × List FileRec)),
      scanFiles d fs idx flag files ⟨[], coll⟩ = Except.ok loc →
      ∀ kv ∈ loc.s, dictFind d kv.1 = none) := by
  constructor
  · exact fun fs lh co fols idx st st' => processFolders_d_preserved fs lh co fols idx st st'
  · intro d fs idx flag files loc coll hok
    obtain ⟨s', c'⟩ := loc
    exact (scanFiles_s_inv d fs idx flag files [] s' coll c' hok (by simp) (by simp)).1

/-- C2 counterexample: in run `c2Args`, digest `h1` receives the canonical
record `/c/f.txt` from the scanned compare-only folder, yet after the
copy-eligible folder's *cache-loaded* map is merged, that canonical record
has been overwritten by `/b/g.txt` — refuting the claim for cache-loaded
folder-local maps. -/
theorem C2_counterexample :
    processFolders c2Fs c2Args.loadHashes true 0 c2Args.compareOnly ⟨[], []⟩ =
      Except.ok ⟨[("h1", ⟨"/c/f.txt", 0, false⟩)], []⟩
    ∧ mergePhase c2Fs c2Args =
      Except.ok ⟨[("h1", ⟨"/b/g.txt", 0, true⟩)], []⟩
    ∧ (⟨"/b/g.txt", 0, true⟩ : FileRec) ≠ ⟨"/c/f.txt", 0, false⟩ :=
  ⟨rfl, rfl, by decide⟩

/-- C2 witness: the preservation part of `C2_additive_merge` applied to a
concrete cache-free folder pass over an index that already holds `h0`. -/
theorem C2_witness :
    processFolders c2wFs false false 0 c2wFols ⟨[("h0", c2wRec)], []⟩ = Except.ok c2wOut
    ∧ dictFind c2wOut.d "h0" = some c2wRec :=
  ⟨rfl, C2_additive_merge.1 c2wFs false false c2wFols 0 ⟨[("h0", c2wRec)], []⟩ c2wOut
    (by decide) rfl "h0" c2wRec rfl⟩

/-- C3.  In a run in which no folder-local map is loaded from cache and
every enumerated file exists, the digests present in the final global
index are exactly the distinct content digests of all files enumerated in
all declared source folders (compare-only and copy-eligible combined). -/
theorem C3_index_digests (fs : Fs) (a : Args) (ms : MergeState)
    (hnc : noCacheLoaded a) (hpres : allPresent fs a)
    (hok : mergePhase fs a = Except.ok ms) :
    ∀ h : Digest, (dictFind ms.d h).isSome = true ↔ h ∈ allDigests fs a := by
  rw [mergePhase_flat fs a hnc hpres] at hok
  simp only [Except.ok.injEq] at hok
  subst hok
  intro h
  rw [(flat_spec (allOccs fs a) h).1, ← allOccs_fst fs a]
  exact occsOf_head_isSome_iff h (allOccs fs a)

/-- C3 witness: applied to the two-folder duplicate-content run `dupArgs`. -/
theorem C3_witness :
    noCacheLoaded dupArgs ∧ allPresent dupFs dupArgs ∧
    mergePhase dupFs dupArgs = Except.ok dupMs ∧
    ((dictFind dupMs.d "h1").isSome = true ↔ "h1" ∈ allDigests dupFs dupArgs) :=
  ⟨by decide, by decide, rfl,
    C3_index_digests dupFs dupArgs dupMs (by decide) (by decide) rfl "h1"⟩

/-- C4.  In a cache-free, all-files-present run whose folder enumerations
are duplicate-free: a digest occurring `n ≥ 2` times has a collision entry
equal to its occurrence sequence with the first (canonical) occurrence
removed — hence of length `n - 1`, in discovery order, never containing
the canonical record — and any digest with a collision entry also has a
canonical record in the final index. -/
theorem C4_collision_bookkeeping (fs : Fs) (a : Args) (ms : MergeState)
    (hnc : noCacheLoaded a) (hpres : allPresent fs a)
    (hnd : ∀ folder ∈ a.compareOnly ++ a.folders, folder.files.Nodup)
    (hok : mergePhase fs a = Except.ok ms) :
    ∀ h : Digest,
      (2 ≤ (occsOf h (allOccs fs a)).length →
        dictFind ms.collisions h = some ((occsOf h (allOccs fs a)).drop 1)
        ∧ ((occsOf h (allOccs fs a)).drop 1).length = (occsOf h (allOccs fs a)).length - 1
        ∧ ∀ r : FileRec, dictFind ms.d h = some r → r ∉ (occsOf h (allOccs fs a)).drop 1)
      ∧ ((dictFind ms.collisions h).isSome = true → (dictFind ms.d h).isSome = true) := by
  rw [mergePhase_flat fs a hnc hpres] at hok
  simp only [Except.ok.injEq] at hok
  subst hok
  intro h
  constructor
  · intro h2
    refine ⟨?_, List.length_drop 1 _, ?_⟩
    · rw [(flat_spec (allOccs fs a) h).2, if_pos h2]
    · intro r hr
      rw [(flat_spec (allOccs fs a) h).1] at hr
      have hnodup : (occsOf h (allOccs fs a)).Nodup :=
        occsOf_nodup h (allOccs fs a) (allOccs_snd_nodup fs a hnd)
      cases hocc : occsOf h (allOccs fs a) with
      | nil => rw [hocc] at hr; exact absurd hr (by simp)
      | cons r₀ rest =>
        rw [hocc] at hr hnodup
        simp only [List.head?_cons, Option.some.injEq] at hr
        subst hr
        simp only [List.drop_succ_cons, List.drop_zero]
        exact (List.nodup_cons.mp hnodup).1
  · intro hsome
    rw [(flat_spec (allOccs fs a) h).2] at hsome
    rw [(flat_spec (allOccs fs a) h).1]
    by_cases h2 : 2 ≤ (occsOf h (allOccs fs a)).length
    · cases hocc : occsOf h (allOccs fs a) with
      | nil => rw [hocc] at h2; simp at h2
      | cons r₀ rest => simp
    · rw [if_neg h2] at hsome
      exact absurd hsome (by simp)

/-- C4 witness: in run `dupArgs`, digest `h1` occurs twice; its collision
entry is exactly the second occurrence, and the canonical record is not in
it. -/
theorem C4_witness :
    2 ≤ (occsOf "h1" (allOccs dupFs dupArgs)).length ∧
    dictFind dupMs.collisions "h1" = some [⟨"/b/note.txt", 1, true⟩] ∧
    ((dictFind dupMs.collisions "h1").isSome = true →
      (dictFind dupMs.d "h1").isSome = true) := by
  have h := C4_collision_bookkeeping dupFs dupArgs dupMs (by decide) (by decide)
    (by decide) rfl "h1"
  refine ⟨by decide, ?_, h.2⟩
  exact ((h.1 (by decide)).1).trans (by decide)

/-! ## Candidate-name structure -/

theorem mem_dictInsert {α : Type} (m : List (String × α)) (k : String) (v : α)
    (p : String × α) (hp : p ∈ dictInsert m k v) : p = (k, v) ∨ p ∈ m := by
  induction m with
  | nil => simpa [dictInsert] using hp
  | cons kv rest ih =>
    unfold dictInsert at hp
    by_cases h₀ : kv.1 = k
    · obtain ⟨k₀, v₀⟩ := kv
      simp only at h₀
      rw [if_pos h₀] at hp
      rcases List.mem_cons.mp hp with he | hm
      · left
        rw [he, h₀]
      · right
        exact List.mem_cons_of_mem _ hm
    · obtain ⟨k₀, v₀⟩ := kv
      simp only at h₀
      rw [if_neg h₀] at hp
      rcases List.mem_cons.mp hp with he | hm
      · right
        rw [he]
        exact List.mem_cons_self _ _
      · rcases ih hm with h | h
        · exact Or.inl h
        · exact Or.inr (List.mem_cons_of_mem _ h)

theorem candChain_length (choice : Nat → Fin 26) (dir : String) :
    ∀ (n t : Nat) (target : String), (candChain choice dir t target n).length = n := by
  intro n
  induction n with
  | zero => intro t target; rfl
  | succ n' ih =>
    intro t target
    rw [candChain, List.length_cons, ih]

theorem ensureDir_files (fs : Fs) (d : String) : (ensureDir fs d).files = fs.files := by
  unfold ensureDir
  split <;> rfl

theorem mkFix_length (choice : Nat → Fin 26) (t : Nat) : (mkFix choice t).length = 4 := rfl

theorem mkFix_lower (choice : Nat → Fin 26) (t : Nat) :
    ∀ c ∈ (mkFix choice t).data, 'a' ≤ c ∧ c ≤ 'z' := by
  have key : ∀ v : Fin 26, 'a' ≤ Char.ofNat (97 + v.val) ∧ Char.ofNat (97 + v.val) ≤ 'z' := by
    decide
  intro c hc
  obtain ⟨i, _, he⟩ :=
    List.mem_map.mp
      (show c ∈ (List.range 4).map
        (fun i => Char.ofNat (97 + (choice (4 * t + i)).val)) from hc)
  rw [← he]
  exact key (choice (4 * t + i))

theorem lastIdx_isSome_of_mem (cs : List Char) (c : Char) (h : c ∈ cs) :
    (lastIdx cs c).isSome = true := by
  induction cs with
  | nil => exact absurd h (List.not_mem_nil c)
  | cons x rest ih =>
    unfold lastIdx
    cases hl : lastIdx rest c with
    | some i => simp
    | none =>
      rcases List.mem_cons.mp h with he | hm
      · rw [if_pos he.symm]
        simp
      · exact absurd (ih hm) (by rw [hl]; simp)

theorem isAbs_append_left (s r : String) (h : isAbs s = true) : isAbs (s ++ r) = true := by
  unfold isAbs at h ⊢
  rw [String.data_append]
  cases hd : s.data with
  | nil => rw [hd] at h; simp at h
  | cons c0 rest =>
    rw [hd] at h
    simp only [List.head?_cons, decide_eq_true_eq, Option.some.injEq] at h
    simp [h]

theorem splitext_fst_isAbs (p : String) (h : isAbs p = true) :
    isAbs (splitext p).1 = true := by
  unfold splitext
  cases hd : p.data with
  | nil =>
    unfold isAbs at h
    rw [hd] at h
    simp at h
  | cons c0 rest =>
    have hc0 : c0 = '/' := by
      unfold isAbs at h
      rw [hd] at h
      simpa using h
    subst hc0
    dsimp only
    cases hsep : lastIdx ('/' :: rest) '/' with
    | none =>
      have := lastIdx_isSome_of_mem ('/' :: rest) '/' (List.mem_cons_self _ _)
      rw [hsep] at this
      simp at this
    | some i =>
      dsimp only
      cases hdot : lastIdx ('/' :: rest) '.' with
      | none =>
        dsimp only
        rw [if_neg (by omega)]
        exact h
      | some j =>
        dsimp only
        by_cases hij : (i : Int) < (j : Int)
        · rw [if_pos hij]
          have hj1 : 1 ≤ j := by omega
          by_cases han : (List.range' ((i : Int) + 1).toNat ((j : Int).toNat - ((i : Int) + 1).toNat)).any
              (fun idx => decide (('/' :: rest).get? idx ≠ some '.')) = true
          · rw [if_pos han]
            dsimp only
            unfold isAbs
            obtain ⟨j', hj'⟩ : ∃ j', j = j' + 1 := ⟨j - 1, by omega⟩
            subst hj'
            rw [show (((j' + 1 : Nat) : Int)).toNat = j' + 1 by omega]
            simp
          · rw [if_neg han]
            exact h
        · rw [if_neg hij]
          exact h

theorem nextCandidate_form (choice : Nat → Fin 26) (dir : String) (t : Nat)
    (target : String) (h : isAbs target = true) :
    nextCandidate choice dir t target =
      (splitext target).1 ++ "__COPY" ++ mkFix choice t ++ (splitext target).2 := by
  have habs : isAbs ((splitext target).1 ++ "__COPY" ++ mkFix choice t ++
      (splitext target).2) = true :=
    isAbs_append_left _ _ (isAbs_append_left _ _ (isAbs_append_left _ _
      (splitext_fst_isAbs target h)))
  unfold nextCandidate pyJoin
  dsimp only
  rw [if_pos habs]

/-! ## The rename-resolution loop -/

theorem fixnameLoop_eq_zero (choice : Nat → Fin 26) (fs : Fs) (dir : String)
    (t : Nat) (target : String) (rens : List String) :
    fixnameLoop choice fs dir 0 t target rens =
      if fs.isfile target then Except.error 2 else Except.ok (target, rens, t) := rfl

theorem fixnameLoop_eq_one (choice : Nat → Fin 26) (fs : Fs) (dir : String)
    (t : Nat) (target : String) (rens : List String) :
    fixnameLoop choice fs dir 1 t target rens =
      if fs.isfile target then Except.error 2 else Except.ok (target, rens, t) := rfl

theorem fixnameLoop_eq_succ (choice : Nat → Fin 26) (fs : Fs) (dir : String)
    (k' t : Nat) (target : String) (rens : List String) :
    fixnameLoop choice fs dir (k' + 2) t target rens =
      if fs.isfile target then
        fixnameLoop choice fs dir (k' + 1) (t + 1) (nextCandidate choice dir t target)
          (rens ++ [nextCandidate choice dir t target])
      else Except.ok (target, rens, t) := rfl

/-- Full characterization of the fix loop from any state: a successful
exit returns the first non-colliding candidate of the chain, appends every
generated candidate to `renames`, advances the randomness counter once per
generation, and (when entered with budget `k ≥ 1`) generates at most
`k - 1` candidates; the only possible error is exit status 2. -/
theorem fixnameLoop_spec (choice : Nat → Fin 26) (fs : Fs) (dir : String) :
    ∀ (k t : Nat) (target : String) (rens : List String),
    (∀ tf rens' t',
      fixnameLoop choice fs dir k t target rens = Except.ok (tf, rens', t') →
      ∃ m, rens' = rens ++ candChain choice dir t target m
        ∧ t' = t + m
        ∧ tf = chainLast choice dir t target m
        ∧ fs.isfile tf = false
        ∧ (m + 1 ≤ k ∨ m = 0))
    ∧ (∀ e, fixnameLoop choice fs dir k t target rens = Except.error e → e = 2) := by
  intro k
  induction k using Nat.strong_induction_on with
  | _ k ih =>
    intro t target rens
    by_cases hisf : fs.isfile target = true
    · constructor
      · intro tf rens' t' hok
        match k with
        | 0 =>
          rw [fixnameLoop_eq_zero, if_pos hisf] at hok
          exact absurd hok (by simp)
        | 1 =>
          rw [fixnameLoop_eq_one, if_pos hisf] at hok
          exact absurd hok (by simp)
        | k' + 2 =>
          rw [fixnameLoop_eq_succ, if_pos hisf] at hok
          obtain ⟨m', h1, h2, h3, h4, h5⟩ :=
            ((ih (k' + 1) (by omega)) (t + 1) (nextCandidate choice dir t target)
              (rens ++ [nextCandidate choice dir t target])).1 tf rens' t' hok
          refine ⟨m' + 1, ?_, by omega, ?_, h4, by omega⟩
          · rw [h1, candChain, List.append_assoc]
            rfl
          · rw [h3, chainLast]
      · intro e herr
        match k with
        | 0 =>
          rw [fixnameLoop_eq_zero, if_pos hisf] at herr
          simp only [Except.error.injEq] at herr
          exact herr.symm
        | 1 =>
          rw [fixnameLoop_eq_one, if_pos hisf] at herr
          simp only [Except.error.injEq] at herr
          exact herr.symm
        | k' + 2 =>
          rw [fixnameLoop_eq_succ, if_pos hisf] at herr
          exact ((ih (k' + 1) (by omega)) (t + 1) (nextCandidate choice dir t target)
            (rens ++ [nextCandidate choice dir t target])).2 e herr
    · constructor
      · intro tf rens' t' hok
        match k with
        | 0 =>
          rw [fixnameLoop_eq_zero, if_neg hisf] at hok
          simp only [Except.ok.injEq, Prod.mk.injEq] at hok
          obtain ⟨h1, h2, h3⟩ := hok
          refine ⟨0, ?_, by omega, ?_, ?_, Or.inr rfl⟩
          · rw [← h2, candChain, List.append_nil]
          · rw [← h1, chainLast]
          · rw [← h1]
            exact Bool.not_eq_true _ ▸ hisf
        | 1 =>
          rw [fixnameLoop_eq_one, if_neg hisf] at hok
          simp only [Except.ok.injEq, Prod.mk.injEq] at hok
          obtain ⟨h1, h2, h3⟩ := hok
          refine ⟨0, ?_, by omega, ?_, ?_, Or.inr rfl⟩
          · rw [← h2, candChain, List.append_nil]
          · rw [← h1, chainLast]
          · rw [← h1]
            exact Bool.not_eq_true _ ▸ hisf
        | k' + 2 =>
          rw [fixnameLoop_eq_succ, if_neg hisf] at hok
          simp only [Except.ok.injEq, Prod.mk.injEq] at hok
          obtain ⟨h1, h2, h3⟩ := hok
          refine ⟨0, ?_, by omega, ?_, ?_, Or.inr rfl⟩
          · rw [← h2, candChain, List.append_nil]
          · rw [← h1, chainLast]
          · rw [← h1]
            exact Bool.not_eq_true _ ▸ hisf
      · intro e herr
        match k with
        | 0 =>
          rw [fixnameLoop_eq_zero, if_neg hisf] at herr
          exact absurd herr (by simp)
        | 1 =>
          rw [fixnameLoop_eq_one, if_neg hisf] at herr
          exact absurd herr (by simp)
        | k' + 2 =>
          rw [fixnameLoop_eq_succ, if_neg hisf] at herr
          exact absurd herr (by simp)

/-- Exhaustion: when the initial target and five successive candidates
all exist, the loop entered with budget 6 (`j = 0`) aborts with exit
status 2. -/
theorem fixnameLoop_exhaust_aux (choice : Nat → Fin 26) (fs : Fs) (dir : String) :
    ∀ (k t : Nat) (target : String) (rens : List String),
    fs.isfile target = true →
    (∀ c ∈ candChain choice dir t target k, fs.isfile c = true) →
    fixnameLoop choice fs dir (k + 1) t target rens = Except.error 2 := by
  intro k
  induction k with
  | zero =>
    intro t target rens h0 _
    rw [fixnameLoop_eq_one, if_pos h0]
  | succ k' ih =>
    intro t target rens h0 hall
    rw [show k' + 1 + 1 = k' + 2 from rfl, fixnameLoop_eq_succ, if_pos h0]
    apply ih
    · exact hall _ (by rw [candChain]; exact List.mem_cons_self _ _)
    · intro c hc
      exact hall c (by rw [candChain]; exact List.mem_cons_of_mem _ hc)

/-! ## Per-record behaviour of the copy step -/

theorem copyStep_copies_key (a : Args) (choice : Nat → Fin 26) (st : CopyState)
    (h : Digest) (v : FileRec) (st' : CopyState) (brk : Bool)
    (hok : copyStep a choice st h v = Except.ok (st', brk)) :
    ∀ x : Digest, (dictFind st'.copies x).isSome = true →
      (dictFind st.copies x).isSome = true ∨ x = h := by
  intro x hx
  unfold copyStep at hok
  split at hok
  · exact absurd hok (by simp)
  · dsimp only at hok
    split at hok
    · exact absurd hok (by simp)
    · split at hok
      · simp only [Except.ok.injEq, Prod.mk.injEq] at hok
        obtain ⟨h1, _⟩ := hok
        rw [← h1] at hx
        exact Or.inl hx
      · split at hok
        · simp only [Except.ok.injEq, Prod.mk.injEq] at hok
          obtain ⟨h1, _⟩ := hok
          rw [← h1] at hx
          exact Or.inl hx
        · split at hok
          · exact absurd hok (by simp)
          · split at hok
            · exact absurd hok (by simp)
            · split at hok
              · rename_i output_eq
                simp only [Except.ok.injEq, Prod.mk.injEq] at hok
                obtain ⟨h1, _⟩ := hok
                rw [← h1] at hx
                dsimp only at hx
                rw [dictFind_dictInsert] at hx
                by_cases hxe : x = h
                · exact Or.inr hxe
                · left
                  rw [if_neg (by rw [output_eq]; exact fun he => hxe he.symm)] at hx
                  exact hx
              · exact absurd hok (by simp)

theorem copyStep_integrity (a : Args) (choice : Nat → Fin 26) (st : CopyState)
    (h : Digest) (v : FileRec) (st' : CopyState) (brk : Bool)
    (hok : copyStep a choice st h v = Except.ok (st', brk))
    (hinv : ∀ p ∈ st.copies, dictFind st.fs.files p.2 = some p.1) :
    ∀ p ∈ st'.copies, dictFind st'.fs.files p.2 = some p.1 := by
  unfold copyStep at hok
  split at hok
  · exact absurd hok (by simp)
  · rename_i root hroot
    dsimp only at hok
    split at hok
    · exact absurd hok (by simp)
    · rename_i tf rens tnew heq
      split at hok
      · simp only [Except.ok.injEq, Prod.mk.injEq] at hok
        obtain ⟨h1, _⟩ := hok
        rw [← h1]
        dsimp only
        rw [ensureDir_files]
        exact hinv
      · split at hok
        · simp only [Except.ok.injEq, Prod.mk.injEq] at hok
          obtain ⟨h1, _⟩ := hok
          rw [← h1]
          dsimp only
          rw [ensureDir_files]
          exact hinv
        · rename_i hskip
          split at hok
          · exact absurd hok (by simp)
          · rename_i realH hsrc
            split at hok
            · exact absurd hok (by simp)
            · rename_i outH hhash
              split at hok
              · rename_i houte
                simp only [Except.ok.injEq, Prod.mk.injEq] at hok
                obtain ⟨h1, _⟩ := hok
                rw [← h1]
                dsimp only
                have houtr : outH = realH := by
                  unfold calc_hash at hhash
                  dsimp only [Fs.addFile] at hhash
                  rw [dictFind_dictInsert, if_pos rfl] at hhash
                  simpa using hhash.symm
                have htf_none : dictFind st.fs.files tf = none := by
                  have hh := hskip
                  unfold Fs.isfile at hh
                  rw [ensureDir_files] at hh
                  cases hfind : dictFind st.fs.files tf
                  · rfl
                  · rw [hfind] at hh
                    simp at hh
                intro p hp
                rcases mem_dictInsert _ _ _ p hp with he | hm
                · rw [he]
                  dsimp only [Fs.addFile]
                  rw [ensureDir_files, dictFind_dictInsert, if_pos rfl, houtr]
                · have hold := hinv p hm
                  dsimp only [Fs.addFile]
                  rw [ensureDir_files, dictFind_dictInsert]
                  by_cases hpe : tf = p.2
                  · rw [← hpe] at hold
                    rw [htf_none] at hold
                    exact absurd hold (by simp)
                  · rw [if_neg hpe]
                    exact hold
              · exact absurd hok (by simp)

theorem copyStep_nondry_copies (a : Args) (choice : Nat → Fin 26) (st : CopyState)
    (h : Digest) (v : FileRec) (st' : CopyState) (brk : Bool)
    (hdry : a.dryRun = false)
    (hok : copyStep a choice st h v = Except.ok (st', brk)) :
    brk = false ∧ (dictFind st'.copies h).isSome = true := by
  unfold copyStep at hok
  split at hok
  · exact absurd hok (by simp)
  · rename_i root hroot
    dsimp only at hok
    split at hok
    · exact absurd hok (by simp)
    · rename_i tf rens tnew heq
      split at hok
      · rename_i hdry'
        rw [hdry] at hdry'
        exact absurd hdry' (by simp)
      · split at hok
        · rename_i hisf
          obtain ⟨m, _, _, _, hfalse, _⟩ :=
            ((fixnameLoop_spec choice _ _) 6 st.t _ st.renames).1 tf rens tnew heq
          rw [hisf] at hfalse
          exact absurd hfalse (by simp)
        · split at hok
          · exact absurd hok (by simp)
          · rename_i realH hsrc
            split at hok
            · exact absurd hok (by simp)
            · rename_i outH hhash
              split at hok
              · rename_i houte
                simp only [Except.ok.injEq, Prod.mk.injEq] at hok
                obtain ⟨h1, h2⟩ := hok
                refine ⟨h2.symm, ?_⟩
                rw [← h1]
                dsimp only
                rw [dictFind_dictInsert, if_pos houte]
                simp
              · exact absurd hok (by simp)

theorem copyStep_dry (a : Args) (choice : Nat → Fin 26) (st : CopyState)
    (h : Digest) (v : FileRec) (st' : CopyState) (brk : Bool)
    (hdry : a.dryRun = true)
    (hok : copyStep a choice st h v = Except.ok (st', brk)) :
    brk = true ∧ st'.copies = st.copies ∧ st'.fs.files = st.fs.files := by
  unfold copyStep at hok
  split at hok
  · exact absurd hok (by simp)
  · rename_i root hroot
    dsimp only at hok
    split at hok
    · exact absurd hok (by simp)
    · rename_i tf rens tnew heq
      split at hok
      · simp only [Except.ok.injEq, Prod.mk.injEq] at hok
        obtain ⟨h1, h2⟩ := hok
        rw [← h1]
        exact ⟨h2.symm, rfl, ensureDir_files st.fs _⟩
      · rename_i hdry'
        exact absurd hdry hdry'

/-! ## Loop-level behaviour of the copy phase -/

theorem copyLoop_copies_source (a : Args) (choice : Nat → Fin 26) :
    ∀ (entries : List (Digest × FileRec)) (st st' : CopyState),
    copyLoop a choice entries st = Except.ok st' →
    ∀ x : Digest, (dictFind st'.copies x).isSome = true →
      (dictFind st.copies x).isSome = true ∨
        ∃ v : FileRec, (x, v) ∈ entries ∧ v.copyFlag = true := by
  intro entries
  induction entries with
  | nil =>
    intro st st' hok x hx
    simp only [copyLoop, Except.ok.injEq] at hok
    rw [← hok] at hx
    exact Or.inl hx
  | cons e rest ih =>
    intro st st' hok x hx
    obtain ⟨h, v⟩ := e
    unfold copyLoop at hok
    by_cases hflag : v.copyFlag = false
    · rw [if_pos hflag] at hok
      rcases ih st st' hok x hx with hl | ⟨v', hv', hf'⟩
      · exact Or.inl hl
      · exact Or.inr ⟨v', List.mem_cons_of_mem _ hv', hf'⟩
    · rw [if_neg hflag] at hok
      cases hstep : copyStep a choice st h v with
      | error e' => rw [hstep] at hok; exact absurd hok (by simp)
      | ok res =>
        rw [hstep] at hok
        obtain ⟨st₁, brk⟩ := res
        dsimp only at hok
        have hkey := copyStep_copies_key a choice st h v st₁ brk hstep
        by_cases hbrk : brk = true
        · rw [if_pos hbrk] at hok
          simp only [Except.ok.injEq] at hok
          rw [← hok] at hx
          rcases hkey x hx with hl | he
          · exact Or.inl hl
          · exact Or.inr ⟨v, he ▸ List.mem_cons_self _ _,
              Bool.not_eq_false v.copyFlag ▸ hflag⟩
        · rw [if_neg hbrk] at hok
          rcases ih st₁ st' hok x hx with hl | ⟨v', hv', hf'⟩
          · rcases hkey x hl with hl' | he
            · exact Or.inl hl'
            · exact Or.inr ⟨v, he ▸ List.mem_cons_self _ _,
                Bool.not_eq_false v.copyFlag ▸ hflag⟩
          · exact Or.inr ⟨v', List.mem_cons_of_mem _ hv', hf'⟩

theorem copyLoop_integrity (a : Args) (choice : Nat → Fin 26) :
    ∀ (entries : List (Digest × FileRec)) (st st' : CopyState),
    copyLoop a choice entries st = Except.ok st' →
    (∀ p ∈ st.copies, dictFind st.fs.files p.2 = some p.1) →
    ∀ p ∈ st'.copies, dictFind st'.fs.files p.2 = some p.1 := by
  intro entries
  induction entries with
  | nil =>
    intro st st' hok hinv
    simp only [copyLoop, Except.ok.injEq] at hok
    rw [← hok]
    exact hinv
  | cons e rest ih =>
    intro st st' hok hinv
    obtain ⟨h, v⟩ := e
    unfold copyLoop at hok
    by_cases hflag : v.copyFlag = false
    · rw [if_pos hflag] at hok
      exact ih st st' hok hinv
    · rw [if_neg hflag] at hok
      cases hstep : copyStep a choice st h v with
      | error e' => rw [hstep] at hok; exact absurd hok (by simp)
      | ok res =>
        rw [hstep] at hok
        obtain ⟨st₁, brk⟩ := res
        dsimp only at hok
        have hinv₁ := copyStep_integrity a choice st h v st₁ brk hstep hinv
        by_cases hbrk : brk = true
        · rw [if_pos hbrk] at hok
          simp only [Except.ok.injEq] at hok
          rw [← hok]
          exact hinv₁
        · rw [if_neg hbrk] at hok
          exact ih st₁ st' hok hinv₁

theorem copyLoop_dry (a : Args) (choice : Nat → Fin 26) (hdry : a.dryRun = true) :
    ∀ (entries : List (Digest × FileRec)) (st st' : CopyState),
    copyLoop a choice entries st = Except.ok st' →
    st'.copies = st.copies ∧ st'.fs.files = st.fs.files := by
  intro entries
  induction entries with
  | nil =>
    intro st st' hok
    simp only [copyLoop, Except.ok.injEq] at hok
    rw [← hok]
    exact ⟨rfl, rfl⟩
  | cons e rest ih =>
    intro st st' hok
    obtain ⟨h, v⟩ := e
    unfold copyLoop at hok
    by_cases hflag : v.copyFlag = false
    · rw [if_pos hflag] at hok
      exact ih st st' hok
    · rw [if_neg hflag] at hok
      cases hstep : copyStep a choice st h v with
      | error e' => rw [hstep] at hok; exact absurd hok (by simp)
      | ok res =>
        rw [hstep] at hok
        obtain ⟨st₁, brk⟩ := res
        dsimp only at hok
        obtain ⟨hbrk, hcop, hfiles⟩ := copyStep_dry a choice st h v st₁ brk hdry hstep
        rw [if_pos hbrk] at hok
        simp only [Except.ok.injEq] at hok
        rw [← hok]
        exact ⟨hcop, hfiles⟩

theorem copyLoop_dry_halt (a : Args) (choice : Nat → Fin 26) (hdry : a.dryRun = true)
    (h : Digest) (v : FileRec) (rest : List (Digest × FileRec)) (st : CopyState)
    (hflag : v.copyFlag = true) :
    copyLoop a choice ((h, v) :: rest) st = copyLoop a choice [(h, v)] st := by
  unfold copyLoop
  rw [if_neg (by rw [hflag]; simp), if_neg (by rw [hflag]; simp)]
  cases hstep : copyStep a choice st h v with
  | error e => rfl
  | ok res =>
    obtain ⟨st₁, brk⟩ := res
    obtain ⟨hbrk, _, _⟩ := copyStep_dry a choice st h v st₁ brk hdry hstep
    dsimp only
    rw [if_pos hbrk, if_pos hbrk]

/-! ## A vanished file aborts the merge phase with status 1 -/

theorem calc_hash_error_code (fs : Fs) (f : String) (e : Nat)
    (h : calc_hash fs f = Except.error e) : e = 1 := by
  unfold calc_hash at h
  cases hf : dictFind fs.files f <;> rw [hf] at h
  · simpa using h.symm
  · exact absurd h (by simp)

theorem scanStep_error_code (d : List (Digest × FileRec)) (fs : Fs) (idx : Nat)
    (flag : Bool) (st : FolderLocal) (f : String) (e : Nat)
    (h : scanStep d fs idx flag st f = Except.error e) : e = 1 := by
  unfold scanStep at h
  cases hh : calc_hash fs f with
  | error e' =>
    rw [hh] at h
    dsimp only at h
    simp only [Except.error.injEq] at h
    rw [← h]
    exact calc_hash_error_code fs f e' hh
  | ok fh =>
    rw [hh] at h
    dsimp only at h
    split at h
    · exact absurd h (by simp)
    · split at h <;> exact absurd h (by simp)

theorem scanFiles_error_code (d : List (Digest × FileRec)) (fs : Fs) (idx : Nat)
    (flag : Bool) :
    ∀ (files : List String) (st : FolderLocal) (e : Nat),
    scanFiles d fs idx flag files st = Except.error e → e = 1 := by
  intro files
  induction files with
  | nil =>
    intro st e h
    exact absurd h (by simp [scanFiles])
  | cons f rest ih =>
    intro st e h
    unfold scanFiles at h
    cases hstep : scanStep d fs idx flag st f with
    | error e' =>
      rw [hstep] at h
      simp only [Except.error.injEq] at h
      rw [← h]
      exact scanStep_error_code d fs idx flag st f e' hstep
    | ok st₁ =>
      rw [hstep] at h
      exact ih st₁ e h

theorem scanFiles_absent (d : List (Digest × FileRec)) (fs : Fs) (idx : Nat)
    (flag : Bool) :
    ∀ (files : List String) (st : FolderLocal),
    (∃ f ∈ files, dictFind fs.files f = none) →
    scanFiles d fs idx flag files st = Except.error 1 := by
  intro files
  induction files with
  | nil =>
    intro st habs
    obtain ⟨f, hf, _⟩ := habs
    exact absurd hf (List.not_mem_nil f)
  | cons f rest ih =>
    intro st habs
    obtain ⟨g, hg, hgabs⟩ := habs
    unfold scanFiles
    cases hstep : scanStep d fs idx flag st f with
    | error e =>
      rw [scanStep_error_code d fs idx flag st f e hstep]
    | ok st₁ =>
      rcases List.mem_cons.mp hg with he | hm
      · subst he
        unfold scanStep at hstep
        unfold calc_hash at hstep
        rw [hgabs] at hstep
        exact absurd hstep (by simp)
      · exact ih st₁ ⟨g, hm, hgabs⟩

theorem processFolder_error_code (fs : Fs) (lh co : Bool) (st : MergeState) (idx : Nat)
    (folder : SourceFolder) (e : Nat)
    (hnc : (if lh then folder.cached else none) = none)
    (h : processFolder fs lh co st idx folder = Except.error e) : e = 1 := by
  unfold processFolder at h
  rw [hnc] at h
  dsimp only at h
  cases hscan : scanFiles st.d fs idx (!co) folder.files ⟨[], st.collisions⟩ with
  | error e' =>
    rw [hscan] at h
    simp only [Except.error.injEq] at h
    rw [← h]
    exact scanFiles_error_code st.d fs idx (!co) folder.files _ e' hscan
  | ok loc =>
    rw [hscan] at h
    exact absurd h (by simp)

theorem processFolder_absent (fs : Fs) (lh co : Bool) (st : MergeState) (idx : Nat)
    (folder : SourceFolder)
    (hnc : (if lh then folder.cached else none) = none)
    (habs : ∃ f ∈ folder.files, dictFind fs.files f = none) :
    processFolder fs lh co st idx folder = Except.error 1 := by
  unfold processFolder
  rw [hnc]
  dsimp only
  rw [scanFiles_absent st.d fs idx (!co) folder.files ⟨[], st.collisions⟩ habs]

theorem processFolders_error_code (fs : Fs) (lh co : Bool) :
    ∀ (fols : List SourceFolder) (idx : Nat) (st : MergeState) (e : Nat),
    (∀ folder ∈ fols, (if lh then folder.cached else none) = none) →
    processFolders fs lh co idx fols st = Except.error e → e = 1 := by
  intro fols
  induction fols with
  | nil =>
    intro idx st e _ h
    exact absurd h (by simp [processFolders])
  | cons folder rest ih =>
    intro idx st e hnc h
    unfold processFolders at h
    cases hstep : processFolder fs lh co st idx folder with
    | error e' =>
      rw [hstep] at h
      simp only [Except.error.injEq] at h
      rw [← h]
      exact processFolder_error_code fs lh co st idx folder e'
        (hnc folder (List.mem_cons_self _ _)) hstep
    | ok st₁ =>
      rw [hstep] at h
      exact ih (idx + 1) st₁ e (fun g hg => hnc g (List.mem_cons_of_mem _ hg)) h

theorem processFolders_absent (fs : Fs) (lh co : Bool) :
    ∀ (fols : List SourceFolder) (idx : Nat) (st : MergeState),
    (∀ folder ∈ fols, (if lh then folder.cached else none) = none) →
    (∃ folder ∈ fols, ∃ f ∈ folder.files, dictFind fs.files f = none) →
    processFolders fs lh co idx fols st = Except.error 1 := by
  intro fols
  induction fols with
  | nil =>
    intro idx st _ habs
    obtain ⟨folder, hf, _⟩ := habs
    exact absurd hf (List.not_mem_nil folder)
  | cons folder rest ih =>
    intro idx st hnc habs
    obtain ⟨g, hg, hgabs⟩ := habs
    unfold processFolders
    cases hstep : processFolder fs lh co st idx folder with
    | error e =>
      rw [processFolder_error_code fs lh co st idx folder e
        (hnc folder (List.mem_cons_self _ _)) hstep]
    | ok st₁ =>
      rcases List.mem_cons.mp hg with he | hm
      · subst he
        rw [processFolder_absent fs lh co st idx g
          (hnc g (List.mem_cons_self _ _)) hgabs] at hstep
        exact absurd hstep (by simp)
      · exact ih (idx + 1) st₁ (fun g' hg' => hnc g' (List.mem_cons_of_mem _ hg'))
          ⟨g, hm, hgabs⟩

theorem mergePhase_absent (fs : Fs) (a : Args)
    (hnc : noCacheLoaded a)
    (habs : ∃ folder ∈ a.compareOnly ++ a.folders,
      ∃ f ∈ folder.files, dictFind fs.files f = none) :
    mergePhase fs a = Except.error 1 := by
  unfold mergePhase
  obtain ⟨folder, hfol, hfabs⟩ := habs
  rcases List.mem_append.mp hfol with hm | hm
  · rw [processFolders_absent fs a.loadHashes true a.compareOnly 0 ⟨[], []⟩
      (fun g hg => hnc g (List.mem_append_left _ hg)) ⟨folder, hm, hfabs⟩]
  · cases hcmp : processFolders fs a.loadHashes true 0 a.compareOnly ⟨[], []⟩ with
    | error e =>
      dsimp only
      rw [processFolders_error_code fs a.loadHashes true a.compareOnly 0 ⟨[], []⟩ e
        (fun g hg => hnc g (List.mem_append_left _ hg)) hcmp]
    | ok st₁ =>
      dsimp only
      rw [processFolders_absent fs a.loadHashes false a.folders 0 st₁
        (fun g hg => hnc g (List.mem_append_right _ hg)) ⟨folder, hm, hfabs⟩]

/-! ## Claim theorems: copy phase -/

/-- C7.  Filename-collision resolution: the next candidate is the current
candidate with the literal marker `__COPY` plus four random lowercase
letters inserted before its extension; every generated candidate is
recorded in the rename list (the successful exit's rename list is the
input list extended by the generated chain); the loop entered with budget
6 generates at most 5 candidates before a successful exit; and six
consecutive collisions abort with exit status 2. -/
theorem C7_rename_resolution :
    (∀ (choice : Nat → Fin 26) (dir : String) (t : Nat) (target : String),
      isAbs target = true →
      nextCandidate choice dir t target =
        (splitext target).1 ++ "__COPY" ++ mkFix choice t ++ (splitext target).2)
    ∧ (∀ (choice : Nat → Fin 26) (t : Nat),
        (mkFix choice t).length = 4 ∧ ∀ c ∈ (mkFix choice t).data, 'a' ≤ c ∧ c ≤ 'z')
    ∧ (∀ (choice : Nat → Fin 26) (fs : Fs) (dir : String) (t : Nat)
        (target tf : String) (rens rens' : List String) (t' : Nat),
        fixnameLoop choice fs dir 6 t target rens = Except.ok (tf, rens', t') →
        ∃ m, m ≤ 5 ∧ rens' = rens ++ candChain choice dir t target m
          ∧ (candChain choice dir t target m).length = m)
    ∧ (∀ (choice : Nat → Fin 26) (fs : Fs) (dir : String) (t : Nat) (target : String)
        (rens : List String),
        fs.isfile target = true →
        (∀ c ∈ candChain choice dir t target 5, fs.isfile c = true) →
        fixnameLoop choice fs dir 6 t target rens = Except.error 2) := by
  refine ⟨nextCandidate_form,
    fun choice t => ⟨mkFix_length choice t, mkFix_lower choice t⟩, ?_, ?_⟩
  · intro choice fs dir t target tf rens rens' t' hok
    obtain ⟨m, h1, _, _, _, h5⟩ :=
      ((fixnameLoop_spec choice fs dir) 6 t target rens).1 tf rens' t' hok
    exact ⟨m, by omega, h1, candChain_length choice dir m t target⟩
  · intro choice fs dir t target rens h0 hall
    exact fixnameLoop_exhaust_aux choice fs dir 5 t target rens h0 hall

/-- C7 witness: the candidate-form part applied at a concrete absolute
target, and the exhaustion part applied to the six-collision filesystem
`c7Fs`. -/
theorem C7_witness :
    isAbs "/t/a.txt" = true
    ∧ nextCandidate chA "/t" 0 "/t/a.txt" =
        (splitext "/t/a.txt").1 ++ "__COPY" ++ mkFix chA 0 ++ (splitext "/t/a.txt").2
    ∧ nextCandidate chA "/t" 0 "/t/a.txt" = "/t/a__COPYaaaa.txt"
    ∧ c7Fs.isfile "/t/a.txt" = true
    ∧ fixnameLoop chA c7Fs "/t" 6 0 "/t/a.txt" [] = Except.error 2 := by
  refine ⟨by decide, C7_rename_resolution.1 chA "/t" 0 "/t/a.txt" (by decide),
    by decide, by decide, ?_⟩
  exact C7_rename_resolution.2.2.2 chA c7Fs "/t" 0 "/t/a.txt" [] (by decide) (by decide)

/-- C10 (implicit).  The rename loop exits normally only with a candidate
that does not exist, so the `not os.path.isfile(target_file)` guard before
the copy is always true: in a non-dry-run, a copy-eligible record that
completes its step without aborting is always copied (its digest is in the
successful-copy map) and the per-record skip is unreachable. -/
theorem C10_skip_branch_unreachable :
    (∀ (choice : Nat → Fin 26) (fs : Fs) (dir : String) (k t : Nat)
      (target tf : String) (rens rens' : List String) (t' : Nat),
      fixnameLoop choice fs dir k t target rens = Except.ok (tf, rens', t') →
      fs.isfile tf = false)
    ∧ (∀ (a : Args) (choice : Nat → Fin 26) (st : CopyState) (h : Digest)
        (v : FileRec) (st' : CopyState) (brk : Bool),
        a.dryRun = false →
        copyStep a choice st h v = Except.ok (st', brk) →
        brk = false ∧ (dictFind st'.copies h).isSome = true) := by
  constructor
  · intro choice fs dir k t target tf rens rens' t' hok
    obtain ⟨m, _, _, _, h4, _⟩ :=
      ((fixnameLoop_spec choice fs dir) k t target rens).1 tf rens' t' hok
    exact h4
  · intro a choice st h v st' brk hdry hok
    exact copyStep_nondry_copies a choice st h v st' brk hdry hok

/-- C10 witness: the single record of the `c10Args` run is copied under
its resolved name. -/
theorem C10_witness :
    copyStep c10Args chA ⟨c10Fs, [], [], 0⟩ "h9" c10Rec = Except.ok (c10StepOut, false)
    ∧ (dictFind c10StepOut.copies "h9").isSome = true := by
  have hstep : copyStep c10Args chA ⟨c10Fs, [], [], 0⟩ "h9" c10Rec =
      Except.ok (c10StepOut, false) := by rfl
  have h := C10_skip_branch_unreachable.2 c10Args chA ⟨c10Fs, [], [], 0⟩ "h9" c10Rec
    c10StepOut false rfl hstep
  exact ⟨hstep, h.2⟩

/-- C1 (amended).  When a file already exists at the exact resolved
target path of a copy-eligible record, a non-dry-run does *not* skip the
record: the existing name triggers rename resolution (at least one rename
is recorded) and the record is copied under a name different from the
resolved target path.  Re-running the merge against a fully-populated
target therefore performs one rename and one new copy per record, not
zero (`C1_counterexample`). -/
theorem C1_rename_not_skip (a : Args) (choice : Nat → Fin 26) (st : CopyState)
    (h : Digest) (v : FileRec) (root : String) (st' : CopyState) (brk : Bool)
    (hdry : a.dryRun = false)
    (hroot : (a.folders.map SourceFolder.root).get? v.folderIndex = some root)
    (hexists : (ensureDir st.fs (pySplit (resolvedTarget a root v)).1).isfile
      (resolvedTarget a root v) = true)
    (hok : copyStep a choice st h v = Except.ok (st', brk)) :
    st.renames.length + 1 ≤ st'.renames.length
    ∧ ∃ tf : String, dictFind st'.copies h = some tf ∧ tf ≠ resolvedTarget a root v := by
  unfold copyStep at hok
  rw [hroot] at hok
  dsimp only at hok
  cases hloop : fixnameLoop choice (ensureDir st.fs (pySplit (resolvedTarget a root v)).1)
      (pySplit (resolvedTarget a root v)).1 6 st.t (resolvedTarget a root v) st.renames with
  | error e => rw [hloop] at hok; exact absurd hok (by simp)
  | ok res =>
    rw [hloop] at hok
    obtain ⟨tf, rens, tnew⟩ := res
    dsimp only at hok
    obtain ⟨m, hrens, htnew, htf, hnotfile, hbound⟩ :=
      ((fixnameLoop_spec choice _ _) 6 st.t _ st.renames).1 tf rens tnew hloop
    have hm1 : 1 ≤ m := by
      by_contra hm0
      have hm0' : m = 0 := by omega
      subst hm0'
      rw [chainLast] at htf
      rw [htf, hexists] at hnotfile
      exact absurd hnotfile (by simp)
    have htfne : tf ≠ resolvedTarget a root v := by
      intro htfe
      rw [htfe, hexists] at hnotfile
      exact absurd hnotfile (by simp)
    rw [if_neg (by rw [hdry]; simp)] at hok
    rw [if_neg (by rw [hnotfile]; simp)] at hok
    cases hsrc : dictFind
        (ensureDir st.fs (pySplit (resolvedTarget a root v)).1).files (normpath v.path) with
    | none => rw [hsrc] at hok; exact absurd hok (by simp)
    | some realH =>
      rw [hsrc] at hok
      dsimp only at hok
      have hch : calc_hash
          ((ensureDir st.fs (pySplit (resolvedTarget a root v)).1).addFile tf realH) tf =
          Except.ok realH := by
        unfold calc_hash
        dsimp only [Fs.addFile]
        rw [dictFind_dictInsert, if_pos rfl]
      rw [hch] at hok
      dsimp only at hok
      by_cases hout : realH = h
      · rw [if_pos hout] at hok
        simp only [Except.ok.injEq, Prod.mk.injEq] at hok
        obtain ⟨h1, _⟩ := hok
        rw [← h1]
        dsimp only
        constructor
        · rw [hrens, List.length_append, candChain_length]
          omega
        · refine ⟨tf, ?_, htfne⟩
          rw [dictFind_dictInsert, if_pos hout]
      · rw [if_neg hout] at hok
        exact absurd hok (by simp)

/-- C1 counterexample: in run `c1Args` the target already holds the
correctly-named, correct-content file for the only canonical copy-eligible
record (`/t/a.txt`, digest `h1`), yet the copy phase performs one rename
and one new copy — not zero of each, and no skip. -/
theorem C1_counterexample :
    resolvedTarget c1Args "/src" c1Rec = "/t/a.txt"
    ∧ dictFind c1Fs.files "/t/a.txt" = some "h1"
    ∧ merge_sources c1Args c1Fs chA = Except.ok c1Res
    ∧ c1Res.renames.length = 1
    ∧ c1Res.copies.length = 1 :=
  ⟨rfl, rfl, rfl, rfl, rfl⟩

/-- C1 witness: the amended per-record statement applied to the `c1Args`
run's record. -/
theorem C1_witness :
    copyStep c1Args chA ⟨c1Fs, [], [], 0⟩ "h1" c1Rec = Except.ok (c1StepOut, false)
    ∧ (⟨c1Fs, [], [], 0⟩ : CopyState).renames.length + 1 ≤ c1StepOut.renames.length := by
  have hstep : copyStep c1Args chA ⟨c1Fs, [], [], 0⟩ "h1" c1Rec =
      Except.ok (c1StepOut, false) := by rfl
  have h := C1_rename_not_skip c1Args chA ⟨c1Fs, [], [], 0⟩ "h1" c1Rec "/src"
    c1StepOut false rfl rfl (by rfl) hstep
  exact ⟨hstep, h.1⟩

/-- C5.  Content present in a compare-only folder (processed first) and
also in a copy-eligible folder has a canonical record with
`copyEligible = false`, and the copy phase records no copy for that
digest. -/
theorem C5_compare_only_precedence (fs : Fs) (a : Args) (ms : MergeState) (h : Digest)
    (hnc : noCacheLoaded a) (hpres : allPresent fs a)
    (hok : mergePhase fs a = Except.ok ms)
    (hcmp : h ∈ (foldersOccs fs false 0 a.compareOnly).map Prod.fst)
    (_hcpy : h ∈ (foldersOccs fs true 0 a.folders).map Prod.fst) :
    (∃ r : FileRec, dictFind ms.d h = some r ∧ r.copyFlag = false)
    ∧ ∀ (choice : Nat → Fin 26) (res : RunResult),
        merge_sources a fs choice = Except.ok res → dictFind res.copies h = none := by
  rw [mergePhase_flat fs a hnc hpres] at hok
  simp only [Except.ok.injEq] at hok
  subst hok
  have hfind := (flat_spec (allOccs fs a) h).1
  have hocc_ne : occsOf h (foldersOccs fs false 0 a.compareOnly) ≠ [] :=
    (occsOf_ne_nil_iff h _).mpr hcmp
  have hsplit : occsOf h (allOccs fs a) =
      occsOf h (foldersOccs fs false 0 a.compareOnly) ++
        occsOf h (foldersOccs fs true 0 a.folders) :=
    occsOf_append h _ _
  cases hocc : occsOf h (foldersOccs fs false 0 a.compareOnly) with
  | nil => exact absurd hocc hocc_ne
  | cons r₀ rest =>
    have hhead : dictFind (flatFold (allOccs fs a) ⟨[], []⟩).d h = some r₀ := by
      rw [hfind, hsplit, hocc]
      simp
    have hr₀flag : r₀.copyFlag = false := by
      have hr₀mem : r₀ ∈ occsOf h (foldersOccs fs false 0 a.compareOnly) := by
        rw [hocc]
        exact List.mem_cons_self _ _
      exact foldersOccs_flag fs false a.compareOnly 0 (h, r₀) (occsOf_mem h _ r₀ hr₀mem)
    refine ⟨⟨r₀, hhead, hr₀flag⟩, ?_⟩
    intro choice res hrun
    unfold merge_sources at hrun
    by_cases htgt : (!fs.isdir a.target) = true
    · rw [if_pos htgt] at hrun
      exact absurd hrun (by simp)
    · rw [if_neg htgt] at hrun
      rw [mergePhase_flat fs a hnc hpres] at hrun
      dsimp only at hrun
      cases hcl : copyLoop a choice (flatFold (allOccs fs a) ⟨[], []⟩).d ⟨fs, [], [], 0⟩ with
      | error e => rw [hcl] at hrun; exact absurd hrun (by simp)
      | ok cst =>
        rw [hcl] at hrun
        simp only [Except.ok.injEq] at hrun
        have hres : res.copies = cst.copies := by rw [← hrun]
        rw [hres]
        cases hfc : dictFind cst.copies h with
        | none => rfl
        | some p =>
          have hsome : (dictFind cst.copies h).isSome = true := by rw [hfc]; simp
          rcases copyLoop_copies_source a choice _ ⟨fs, [], [], 0⟩ cst hcl h hsome with
            hl | ⟨v, hv, hvflag⟩
          · simp [dictFind] at hl
          · have hnd : ((flatFold (allOccs fs a) ⟨[], []⟩).d.map Prod.fst).Nodup :=
              flatFold_keys_nodup (allOccs fs a) ⟨[], []⟩ (by simp)
            have hv' := dictFind_of_mem_nodup _ h v hnd hv
            rw [hhead] at hv'
            simp only [Option.some.injEq] at hv'
            rw [hv', hvflag] at hr₀flag
            exact absurd hr₀flag (by simp)

/-- C5 witness: in run `c5Args`, content `h1` lives in the compare-only
folder `/c` and the copy-eligible folder `/b`; the canonical record is the
compare-only one and no copy of `h1` is recorded. -/
theorem C5_witness :
    mergePhase c5Fs c5Args = Except.ok c5Ms
    ∧ merge_sources c5Args c5Fs chA = Except.ok c5Res
    ∧ dictFind c5Res.copies "h1" = none
    ∧ dictFind c5Ms.d "h1" = some ⟨"/c/x.txt", 0, false⟩ := by
  refine ⟨rfl, by rfl, ?_, rfl⟩
  exact (C5_compare_only_precedence c5Fs c5Args c5Ms "h1" (by decide) (by decide) rfl
    (by decide) (by decide)).2 chA c5Res (by rfl)

/-- C6.  Post-copy integrity: every entry of the successful-copy map of a
completed run maps a digest to a target file whose content digest equals
that digest (first and second conjuncts: run level, loop level — the
destination re-hash is recorded only when it equals the source digest);
and when the re-hashed destination digest (the source file's actual
content digest) differs from the record's digest, the record's copy step
aborts the run with exit status 3. -/
theorem C6_post_copy_integrity :
    (∀ (a : Args) (fs : Fs) (choice : Nat → Fin 26) (r : RunResult),
      merge_sources a fs choice = Except.ok r →
      ∀ p ∈ r.copies, dictFind r.fs.files p.2 = some p.1)
    ∧ (∀ (a : Args) (choice : Nat → Fin 26) (entries : List (Digest × FileRec))
        (st st' : CopyState),
      copyLoop a choice entries st = Except.ok st' →
      (∀ p ∈ st.copies, dictFind st.fs.files p.2 = some p.1) →
      ∀ p ∈ st'.copies, dictFind st'.fs.files p.2 = some p.1)
    ∧ (∀ (a : Args) (choice : Nat → Fin 26) (st : CopyState) (h realH : Digest)
        (v : FileRec) (root tf : String) (rens : List String) (tnew : Nat),
      a.dryRun = false →
      (a.folders.map SourceFolder.root).get? v.folderIndex = some root →
      fixnameLoop choice (ensureDir st.fs (pySplit (resolvedTarget a root v)).1)
        (pySplit (resolvedTarget a root v)).1 6 st.t (resolvedTarget a root v)
        st.renames = Except.ok (tf, rens, tnew) →
      dictFind st.fs.files (normpath v.path) = some realH →
      realH ≠ h →
      copyStep a choice st h v = Except.error 3) := by
  refine ⟨?_, copyLoop_integrity, ?_⟩
  · intro a fs choice r hok
    unfold merge_sources at hok
    by_cases htgt : (!fs.isdir a.target) = true
    · rw [if_pos htgt] at hok
      exact absurd hok (by simp)
    · rw [if_neg htgt] at hok
      cases hm : mergePhase fs a with
      | error e => rw [hm] at hok; exact absurd hok (by simp)
      | ok ms =>
        rw [hm] at hok
        dsimp only at hok
        cases hcl : copyLoop a choice ms.d ⟨fs, [], [], 0⟩ with
        | error e => rw [hcl] at hok; exact absurd hok (by simp)
        | ok cst =>
          rw [hcl] at hok
          simp only [Except.ok.injEq] at hok
          have hinv := copyLoop_integrity a choice ms.d ⟨fs, [], [], 0⟩ cst hcl
            (by intro p hp; exact absurd hp (List.not_mem_nil p))
          intro p hp
          rw [← hok] at hp ⊢
          exact hinv p hp
  · intro a choice st h realH v root tf rens tnew hdry hroot hloop hsrc hne
    unfold copyStep
    rw [hroot]
    dsimp only
    rw [hloop]
    dsimp only
    obtain ⟨m, _, _, _, hnotfile, _⟩ :=
      ((fixnameLoop_spec choice _ _) 6 st.t _ st.renames).1 tf rens tnew hloop
    rw [if_neg (by rw [hdry]; simp)]
    rw [if_neg (by rw [hnotfile]; simp)]
    rw [show dictFind (ensureDir st.fs (pySplit (resolvedTarget a root v)).1).files
        (normpath v.path) = some realH from (ensureDir_files st.fs _) ▸ hsrc]
    dsimp only
    have hch : calc_hash
        ((ensureDir st.fs (pySplit (resolvedTarget a root v)).1).addFile tf realH) tf =
        Except.ok realH := by
      unfold calc_hash
      dsimp only [Fs.addFile]
      rw [dictFind_dictInsert, if_pos rfl]
    rw [hch]
    dsimp only
    rw [if_neg hne]

/-- C6 witness: the stale-cache run `c6Args` promises digest `h1` for a
file whose content digest is `h2`; the copy step (and the whole run)
aborts with exit status 3, and nothing is recorded. -/
theorem C6_witness :
    merge_sources c6Args c6Fs chA = Except.error 3
    ∧ copyStep c6Args chA ⟨c6Fs, [], [], 0⟩ "h1" c6Rec = Except.error 3 := by
  refine ⟨by rfl, ?_⟩
  exact C6_post_copy_integrity.2.2 c6Args chA ⟨c6Fs, [], [], 0⟩ "h1" "h2" c6Rec "/b"
    "/t/g.txt" [] 0 rfl rfl (by rfl) (by rfl) (by decide)

/-- C8.  Dry-run short-circuit: a dry run's successful-copy map is empty
and its target filesystem is unchanged; the copy loop halts entirely on
the first copy-eligible record (the remaining records are never examined);
the merge phase is independent of the dry-run flag; and the reported
unique-file and duplicate-set counts equal those of the corresponding
non-dry run. -/
theorem C8_dry_run_short_circuit (a : Args) (fs : Fs) (choice : Nat → Fin 26)
    (hdry : a.dryRun = true) :
    (∀ r : RunResult, merge_sources a fs choice = Except.ok r →
      r.copies = [] ∧ r.fs.files = fs.files)
    ∧ (∀ (h : Digest) (v : FileRec) (rest : List (Digest × FileRec)) (st : CopyState),
        v.copyFlag = true →
        copyLoop a choice ((h, v) :: rest) st = copyLoop a choice [(h, v)] st)
    ∧ mergePhase fs { a with dryRun := false } = mergePhase fs a
    ∧ (∀ r r' : RunResult,
        merge_sources a fs choice = Except.ok r →
        merge_sources { a with dryRun := false } fs choice = Except.ok r' →
        uniqueCount r = uniqueCount r' ∧ duplicateSetCount r = duplicateSetCount r') := by
  refine ⟨?_, ?_, rfl, ?_⟩
  · intro r hok
    unfold merge_sources at hok
    by_cases htgt : (!fs.isdir a.target) = true
    · rw [if_pos htgt] at hok
      exact absurd hok (by simp)
    · rw [if_neg htgt] at hok
      cases hm : mergePhase fs a with
      | error e => rw [hm] at hok; exact absurd hok (by simp)
      | ok ms =>
        rw [hm] at hok
        dsimp only at hok
        cases hcl : copyLoop a choice ms.d ⟨fs, [], [], 0⟩ with
        | error e => rw [hcl] at hok; exact absurd hok (by simp)
        | ok cst =>
          rw [hcl] at hok
          simp only [Except.ok.injEq] at hok
          obtain ⟨hc, hf⟩ := copyLoop_dry a choice hdry ms.d ⟨fs, [], [], 0⟩ cst hcl
          exact ⟨by rw [← hok]; exact hc, by rw [← hok]; exact hf⟩
  · intro h v rest st hflag
    exact copyLoop_dry_halt a choice hdry h v rest st hflag
  · intro r r' hok hok'
    unfold merge_sources at hok hok'
    rw [show ({ a with dryRun := false } : Args).target = a.target from rfl,
      show mergePhase fs { a with dryRun := false } = mergePhase fs a from rfl] at hok'
    by_cases htgt : (!fs.isdir a.target) = true
    · rw [if_pos htgt] at hok
      exact absurd hok (by simp)
    · rw [if_neg htgt] at hok hok'
      cases hm : mergePhase fs a with
      | error e =>
        rw [hm] at hok
        exact absurd hok (by simp)
      | ok ms =>
        rw [hm] at hok hok'
        dsimp only at hok hok'
        cases hcl : copyLoop a choice ms.d ⟨fs, [], [], 0⟩ with
        | error e => rw [hcl] at hok; exact absurd hok (by simp)
        | ok cst =>
          rw [hcl] at hok
          cases hcl' : copyLoop { a with dryRun := false } choice ms.d ⟨fs, [], [], 0⟩ with
          | error e => rw [hcl'] at hok'; exact absurd hok' (by simp)
          | ok cst' =>
            rw [hcl'] at hok'
            simp only [Except.ok.injEq] at hok hok'
            constructor
            · show r.d.length = r'.d.length
              rw [← hok, ← hok']
            · show r.collisions.length = r'.collisions.length
              rw [← hok, ← hok']

/-- C8 witness: the two-record dry run `c8Args` copies nothing while its
non-dry counterpart copies both records; the reported counts coincide. -/
theorem C8_witness :
    merge_sources c8Args c8Fs chA = Except.ok c8Res
    ∧ merge_sources { c8Args with dryRun := false } c8Fs chA = Except.ok c8ResWet
    ∧ c8Res.copies = []
    ∧ c8ResWet.copies.length = 2
    ∧ uniqueCount c8Res = uniqueCount c8ResWet
    ∧ duplicateSetCount c8Res = duplicateSetCount c8ResWet := by
  have h1 : merge_sources c8Args c8Fs chA = Except.ok c8Res := by rfl
  have h2 : merge_sources { c8Args with dryRun := false } c8Fs chA =
      Except.ok c8ResWet := by rfl
  have hc := C8_dry_run_short_circuit c8Args c8Fs chA rfl
  exact ⟨h1, h2, ((hc.1 c8Res h1).1), rfl,
    (hc.2.2.2 c8Res c8ResWet h1 h2).1, (hc.2.2.2 c8Res c8ResWet h1 h2).2⟩

/-- C9.  A file that is enumerated but absent at hashing time makes
`calc_hash` raise (`accumulator` is unbound) rather than return a digest;
the exception aborts the entire run with exit status 1 (non-zero), and the
run produces no result — in particular no target file for that record, as
the abort happens during the merge phase, before any copying. -/
theorem C9_vanished_file_fatal (a : Args) (fs : Fs) (choice : Nat → Fin 26)
    (hnc : noCacheLoaded a)
    (habs : ∃ folder ∈ a.compareOnly ++ a.folders,
      ∃ f ∈ folder.files, dictFind fs.files f = none) :
    (∀ f : String, dictFind fs.files f = none →
      calc_hash fs f = Except.error 1 ∧ ∀ d : Digest, calc_hash fs f ≠ Except.ok d)
    ∧ merge_sources a fs choice = Except.error 1
    ∧ (1 : Nat) ≠ 0
    ∧ ∀ r : RunResult, merge_sources a fs choice ≠ Except.ok r := by
  have hmain : merge_sources a fs choice = Except.error 1 := by
    unfold merge_sources
    by_cases htgt : (!fs.isdir a.target) = true
    · rw [if_pos htgt]
    · rw [if_neg htgt, mergePhase_absent fs a hnc habs]
  refine ⟨?_, hmain, by omega, ?_⟩
  · intro f hf
    have hch : calc_hash fs f = Except.error 1 := by
      unfold calc_hash
      rw [hf]
    exact ⟨hch, fun d hd => by rw [hch] at hd; exact absurd hd (by simp)⟩
  · intro r hr
    rw [hmain] at hr
    exact absurd hr (by simp)

/-- C9 witness: in run `c9Args`, the enumerated file `/a/gone.txt` does
not exist; the run aborts with exit status 1. -/
theorem C9_witness :
    dictFind c9Fs.files "/a/gone.txt" = none
    ∧ calc_hash c9Fs "/a/gone.txt" = Except.error 1
    ∧ merge_sources c9Args c9Fs chA = Except.error 1 := by
  have h := C9_vanished_file_fatal c9Args c9Fs chA (by decide) (by decide)
  exact ⟨rfl, (h.1 "/a/gone.txt" rfl).1, h.2.1⟩


end Fdmerge
